import Mathlib

/-!
# Smooth weighted round robin (`balancer/smooth_weighted_round_robin.go`)

A shallow embedding of the generic scheduler `SmoothWeightedRoundRobin[T]`.

Modelling conventions.

* The type parameter `T` is a handle type (in the repository's test a pointer
  `*mockServer`): two equal handles denote the same candidate and share one
  `currentWeight` cell.  The constraint `WeightedServer[T]` becomes the class
  `WeightedServer T`; the static accessors `GetWeight` and `GetName` are
  functions of the handle, the Go zero value `var zero T` is `zero`.
* The mutable accumulator reached through `GetCurrentWeight` /
  `SetCurrentWeight` is the store `curWeight : T → Int` of the state.  The two
  accessors belong to the candidate type: `stored v` is what
  `GetCurrentWeight()` reads back after `SetCurrentWeight(v)`, which is `v` for
  a cell of type `int` and `int(int32(v))` for the `atomic.Int32` cell of the
  test's `mockServer`.
* Go `int` is the 64-bit two's complement integer: every addition and
  subtraction of `Select` is followed by `wrapInt`.  The field `overflow` of the
  loop state and of the results records whether some result did not fit where it
  went: an exact sum or difference outside `int`, or an accumulator that its
  cell did not store unchanged.  It is a ghost value, nothing in the code
  depends on it.
* `reflect.ValueOf(v).IsZero()` panics when `v` is the nil value of an interface
  type.  `isZero` therefore returns an `Option`, `none` standing for the panic,
  and `Select` and `Add` report a panic as the value `none`.
* The mutex is not modelled: every operation is one atomic state transition.
* The definitions whose names end in `Z` are not the code: they are the same
  operations over the unbounded integers and without the panic, and serve only
  as the reference against which the code is compared in the proofs.
-/

set_option linter.unusedSectionVars false

namespace Balancer

/-- The constraint `WeightedServer[T]`: static weight and name of a handle, the
zero value of the type parameter, and what `reflect` sees of a value. -/
class WeightedServer (T : Type) where
  /-- Method `GetWeight() int`. -/
  GetWeight : T → Int
  /-- Method `GetName() string`. -/
  GetName : T → String
  /-- The Go zero value `var zero T`. -/
  zero : T
  /-- Whether `T` is an interface type. -/
  isInterface : Bool
  /-- For an interface type `T` and a non-nil value of it: whether the dynamic
  value it holds is a zero value. -/
  dynamicIsZero : T → Bool
  /-- What `GetCurrentWeight()` reads back after `SetCurrentWeight(v)`. -/
  stored : Int → Int

open WeightedServer

/-- The scheduler's `servers []T` together with the accumulator cell of every
handle. -/
structure State (T : Type) where
  /-- Field `servers []T` of `SmoothWeightedRoundRobin[T]`. -/
  servers : List T
  /-- The `currentWeight` cell behind each handle. -/
  curWeight : T → Int

variable {T : Type} [DecidableEq T] [WeightedServer T]

/-- Whether an integer is a value of Go's 64-bit `int`. -/
def fitsInt (x : Int) : Bool :=
  decide (-9223372036854775808 ≤ x) && decide (x ≤ 9223372036854775807)

/-- The value of Go's 64-bit `int` arithmetic for the exact result `x`: the
representative of `x` modulo `2^64` in `[-2^63, 2^63)`. -/
def wrapInt (x : Int) : Int :=
  (x + 9223372036854775808) % 18446744073709551616 - 9223372036854775808

/-- Method `GetCurrentWeight() int`, reading the store. -/
def GetCurrentWeight (cw : T → Int) (server : T) : Int := cw server

/-- The value of Go's conversion `int32(x)`, as an integer: the representative
of `x` modulo `2^32` in `[-2^31, 2^31)`. -/
def wrapInt32 (x : Int) : Int := (x + 2147483648) % 4294967296 - 2147483648

/-- Method `SetCurrentWeight(weight int)`, writing the store: the cell keeps
`stored weight`. -/
def SetCurrentWeight (cw : T → Int) (server : T) (weight : Int) : T → Int :=
  Function.update cw server (stored T weight)

/-- The helper `isZero`: `reflect.ValueOf(v).IsZero()`.  For an interface type
the nil value makes `IsZero` panic (`none`) and any other value is judged by
the dynamic value it holds; for every other type the value is compared with the
zero value. -/
def isZero (v : T) : Option Bool :=
  if isInterface T then
    if v = (zero : T) then none else some (dynamicIsZero v)
  else
    some (decide (v = (zero : T)))

/-- The constructor `NewSmoothWeightedRoundRobin`: the loop appends every input
with `GetWeight() > 0` to `validServers`.  The second argument is the store at
construction time. -/
def NewSmoothWeightedRoundRobin (servers : List T) (cw : T → Int) : State T :=
  { servers := servers.foldl
      (fun validServers s => if GetWeight s > 0 then validServers ++ [s] else validServers) []
    curWeight := cw }

/-- The local variables of the loop in `Select`, whether the loop was left by a
panic of `isZero`, and the ghost flag. -/
structure Scan (T : Type) where
  /-- Local `totalWeight`. -/
  totalWeight : Int
  /-- Local `selected`. -/
  selected : T
  /-- The store. -/
  cw : T → Int
  /-- Whether `isZero(selected)` has panicked; the loop is then over. -/
  panicked : Bool
  /-- Ghost: whether some exact sum so far did not fit in `int` or some
  accumulator was not stored unchanged. -/
  overflow : Bool

/-- One iteration of `for _, server := range s.servers` in `Select`. -/
def selectStep (st : Scan T) (server : T) : Scan T :=
  if st.panicked then st
  else
    let totalWeight := wrapInt (st.totalWeight + GetWeight server)
    let newCurrentWeight := wrapInt (GetCurrentWeight st.cw server + GetWeight server)
    let cw := SetCurrentWeight st.cw server newCurrentWeight
    let overflow := st.overflow || !fitsInt (st.totalWeight + GetWeight server)
      || !fitsInt (GetCurrentWeight st.cw server + GetWeight server)
      || decide (stored T newCurrentWeight ≠ newCurrentWeight)
    match isZero st.selected with
    | none =>
      { totalWeight := totalWeight, selected := st.selected, cw := cw,
        panicked := true, overflow := overflow }
    | some z =>
      if z || decide (GetCurrentWeight cw server > GetCurrentWeight cw st.selected) then
        { totalWeight := totalWeight, selected := server, cw := cw,
          panicked := false, overflow := overflow }
      else
        { totalWeight := totalWeight, selected := st.selected, cw := cw,
          panicked := false, overflow := overflow }

/-- The whole loop of `Select`, started with `totalWeight := 0` and
`var selected T`. -/
def selectScan (servers : List T) (cw : T → Int) : Scan T :=
  servers.foldl selectStep
    { totalWeight := 0, selected := zero, cw := cw, panicked := false, overflow := false }

/-- How a call of `Select` ends. -/
structure Result (T : Type) where
  /-- The returned value; `none` when the call panicked. -/
  value : Option T
  /-- The state after the call. -/
  state : State T
  /-- Ghost: whether some exact sum or difference did not fit in `int` or some
  accumulator was not stored unchanged. -/
  overflow : Bool

/-- Method `Select`. -/
def Select (s : State T) : Result T :=
  if s.servers.length = 0 then
    { value := some (zero : T), state := s, overflow := false }
  else
    let st := selectScan s.servers s.curWeight
    if st.panicked then
      { value := none, state := { servers := s.servers, curWeight := st.cw },
        overflow := st.overflow }
    else
      let adjustedWeight := wrapInt (GetCurrentWeight st.cw st.selected - st.totalWeight)
      { value := some st.selected
        state := { servers := s.servers,
                   curWeight := SetCurrentWeight st.cw st.selected adjustedWeight }
        overflow := st.overflow
          || !fitsInt (GetCurrentWeight st.cw st.selected - st.totalWeight)
          || decide (stored T adjustedWeight ≠ adjustedWeight) }

/-- Method `Add`: whether the call returned (`some ()`) or panicked in `isZero`
(`none`), and the state after it. -/
def Add (s : State T) (server : T) : Option Unit × State T :=
  match isZero server with
  | none => (none, s)
  | some z =>
    if z || decide (GetWeight server ≤ 0) then (some (), s)
    else (some (), { s with servers := s.servers ++ [server] })

/-- The loop of `Remove`: the index of the first server, scanning from index
`i`, whose name is `name`. -/
def removeIndex (name : String) : List T → Nat → Option Nat
  | [], _ => none
  | server :: rest, i => if GetName server = name then some i else removeIndex name rest (i + 1)

/-- The call `slices.Delete(s, i, j)` for `i ≤ j ≤ len(s)`. -/
def slicesDelete (s : List T) (i j : Nat) : List T := s.take i ++ s.drop j

/-- Method `Remove`. -/
def Remove (s : State T) (name : String) : State T :=
  match removeIndex name s.servers 0 with
  | some i => { s with servers := slicesDelete s.servers i (i + 1) }
  | none => s

/-- What `n` consecutive `Select` calls give. -/
structure Run (T : Type) where
  /-- The returned values in call order, `none` for a call that panicked. -/
  values : List (Option T)
  /-- The state after the calls. -/
  state : State T
  /-- Ghost: whether some exact sum or difference of these calls did not fit
  in `int` or some accumulator was not stored unchanged. -/
  overflow : Bool

/-- The run of `n` consecutive `Select` calls. -/
def selectN : Nat → State T → Run T
  | 0, s => { values := [], state := s, overflow := false }
  | n + 1, s =>
    let r := Select s
    let rs := selectN n r.state
    { values := r.value :: rs.values, state := rs.state, overflow := r.overflow || rs.overflow }

/-- The sum of the static weights of a list of candidates, in the integers. -/
def totalWeightOf (servers : List T) : Int := (servers.map GetWeight).sum

/-- The sum of the accumulator cells of a list of candidates, in the
integers. -/
def curWeightSum (servers : List T) (cw : T → Int) : Int := (servers.map cw).sum

/-- How often the handle `t` is among the returned values `outs`. -/
def timesReturned (outs : List (Option T)) (t : T) : Nat := outs.count (some t)

/-- The members of a pool that come before the first occurrence of `t`, in
pool order. -/
def membersBefore : List T → T → List T
  | [], _ => []
  | x :: rest, t => if x = t then [] else x :: membersBefore rest t

/-- Every member of the pool has a positive weight. -/
def PoolInv (s : State T) : Prop := ∀ t ∈ s.servers, 0 < GetWeight t

/-! ### The reference over the unbounded integers -/

/-- The loop variables of the reference scan. -/
structure ScanZ (T : Type) where
  /-- The exact total weight. -/
  totalWeight : Int
  /-- The selected handle. -/
  selected : T
  /-- The store. -/
  cw : T → Int

/-- The zero test of the reference: comparison with the zero value. -/
def isZeroZ (v : T) : Bool := decide (v = (zero : T))

/-- One iteration of the reference scan: `selectStep` with exact sums, exact
cells and without the panic. -/
def selectStepZ (st : ScanZ T) (server : T) : ScanZ T :=
  let totalWeight := st.totalWeight + GetWeight server
  let newCurrentWeight := st.cw server + GetWeight server
  let cw := Function.update st.cw server newCurrentWeight
  if isZeroZ st.selected || decide (cw server > cw st.selected) then
    { totalWeight := totalWeight, selected := server, cw := cw }
  else
    { totalWeight := totalWeight, selected := st.selected, cw := cw }

/-- The reference scan. -/
def selectScanZ (servers : List T) (cw : T → Int) : ScanZ T :=
  servers.foldl selectStepZ { totalWeight := 0, selected := zero, cw := cw }

/-- The reference of `Select`: the returned value and the state after it. -/
def SelectZ (s : State T) : T × State T :=
  if s.servers.length = 0 then
    ((zero : T), s)
  else
    let st := selectScanZ s.servers s.curWeight
    let adjustedWeight := st.cw st.selected - st.totalWeight
    (st.selected,
      { servers := s.servers, curWeight := Function.update st.cw st.selected adjustedWeight })

/-- The reference of `selectN`. -/
def selectNZ : Nat → State T → List T × State T
  | 0, s => ([], s)
  | n + 1, s =>
    let r := SelectZ s
    let rs := selectNZ n r.2
    (r.1 :: rs.1, rs.2)

/-- The invariant of a run started with every accumulator at zero: the
accumulators of the pool sum to zero and each lies strictly above minus the
total weight. -/
def LedgerInv (s : State T) : Prop :=
  curWeightSum s.servers s.curWeight = 0 ∧
    ∀ t ∈ s.servers, -totalWeightOf s.servers < s.curWeight t

/-! ### A concrete candidate type: pointers to named, weighted records -/

/-- The record behind a pointer, as `mockServer` in the tests: an address, a
name and a static weight. -/
structure Server where
  /-- Address of the record. -/
  addr : Nat
  /-- Field `name`. -/
  name : String
  /-- Field `weight`. -/
  weight : Int
  deriving DecidableEq

/-- A pointer to a `Server`: `none` is the nil pointer. -/
abbrev ServerPtr := Option Server

instance : WeightedServer ServerPtr where
  GetWeight p := match p with
    | some r => r.weight
    | none => 0
  GetName p := match p with
    | some r => r.name
    | none => ""
  zero := none
  isInterface := false
  dynamicIsZero _ := false
  stored v := v

/-- Candidate `A` with weight 1. -/
def srvA : ServerPtr := some { addr := 1, name := "A", weight := 1 }
/-- Candidate `B` with weight 2. -/
def srvB : ServerPtr := some { addr := 2, name := "B", weight := 2 }
/-- Candidate `C` with weight 3. -/
def srvC : ServerPtr := some { addr := 3, name := "C", weight := 3 }
/-- A record `X` with weight 0. -/
def srvX : ServerPtr := some { addr := 8, name := "X", weight := 0 }
/-- A record `Y` with weight -1. -/
def srvY : ServerPtr := some { addr := 9, name := "Y", weight := -1 }
/-- A second record named `A`, with weight 1. -/
def srvA2 : ServerPtr := some { addr := 4, name := "A", weight := 1 }
/-- The nil pointer. -/
def srvNil : ServerPtr := none
/-- Candidate `D` with weight 1. -/
def srvD : ServerPtr := some { addr := 5, name := "D", weight := 1 }
/-- Candidate `M` whose weight is the largest `int`. -/
def srvM : ServerPtr := some { addr := 6, name := "M", weight := 9223372036854775807 }
/-- Candidate `N` whose weight is the largest `int`. -/
def srvN : ServerPtr := some { addr := 7, name := "N", weight := 9223372036854775807 }

/-- The pool `[A, B]` with every accumulator at 5. -/
def poolAB : State ServerPtr := { servers := [srvA, srvB], curWeight := fun _ => 5 }
/-- The pool `[A, B, C]` with every accumulator at 0. -/
def poolABC : State ServerPtr := { servers := [srvA, srvB, srvC], curWeight := fun _ => 0 }
/-- The pool `[A, B, A', C]` in which two members are named `A`. -/
def poolDup : State ServerPtr :=
  { servers := [srvA, srvB, srvA2, srvC], curWeight := fun _ => 0 }
/-- The pool `[A, D]` (weights 1 and 1) whose accumulators start at 2 and 0. -/
def poolAD : State ServerPtr :=
  { servers := [srvA, srvD], curWeight := fun p => if p = srvA then 2 else 0 }
/-- The pool `[A, D, D, A]`, in which both handles are registered twice, with
every accumulator at 0. -/
def poolADDA : State ServerPtr :=
  { servers := [srvA, srvD, srvD, srvA], curWeight := fun _ => 0 }
/-- The pool `[A, D]` (weights 1 and 1) in which the accumulator of `D` is the
largest `int` and that of `A` is 0. -/
def poolADmax : State ServerPtr :=
  { servers := [srvA, srvD],
    curWeight := fun p => if p = srvD then 9223372036854775807 else 0 }
/-- The pool `[M, N]`, both weights the largest `int`, with every accumulator
at 0. -/
def poolMN : State ServerPtr := { servers := [srvM, srvN], curWeight := fun _ => 0 }
/-- Candidate `P` of weight `2^62`. -/
def srvP : ServerPtr := some { addr := 10, name := "P", weight := 4611686018427387904 }
/-- Candidate `Q` of weight `2^62`. -/
def srvQ : ServerPtr := some { addr := 11, name := "Q", weight := 4611686018427387904 }
/-- The pool `[P, Q]`, both weights `2^62`, with every accumulator at 0. -/
def poolPQ : State ServerPtr := { servers := [srvP, srvQ], curWeight := fun _ => 0 }
/-- The pool `[A, B, C]` with the accumulators 7, -2 and -2. -/
def poolABC7 : State ServerPtr :=
  { servers := [srvA, srvB, srvC], curWeight := fun p => if p = srvA then 7 else -2 }

/-! ### The candidate type of the test -/

/-- The type `*mockServer` of `balancer_test.go`: a pointer to a record with a
name and a weight, whose accumulator is kept in an `atomic.Int32`. -/
structure MockPtr where
  /-- The record pointed to; `none` for the nil pointer. -/
  ptr : Option Server
  deriving DecidableEq

instance : WeightedServer MockPtr where
  GetWeight p := match p.ptr with
    | some r => r.weight
    | none => 0
  GetName p := match p.ptr with
    | some r => r.name
    | none => ""
  zero := { ptr := none }
  isInterface := false
  dynamicIsZero _ := false
  stored v := wrapInt32 v

/-- The test's `server1`, of weight 1. -/
def mock1 : MockPtr := { ptr := some { addr := 1, name := "server1", weight := 1 } }
/-- The test's `server2`, of weight 2. -/
def mock2 : MockPtr := { ptr := some { addr := 2, name := "server2", weight := 2 } }
/-- The test's `server3`, of weight 3. -/
def mock3 : MockPtr := { ptr := some { addr := 3, name := "server3", weight := 3 } }
/-- A `mockServer` of weight `2^31`. -/
def mockBig : MockPtr := { ptr := some { addr := 4, name := "big", weight := 2147483648 } }

/-! ### A candidate type whose zero value is a candidate -/

/-- A candidate type that is an index into tables kept elsewhere, as
`type ServerID int` with the four methods reading and writing those tables.
The zero value is the index 0. -/
structure ServerID where
  /-- The index. -/
  id : Nat
  deriving DecidableEq

instance : WeightedServer ServerID where
  GetWeight i := if i.id = 0 then 5 else 1
  GetName i := if i.id = 0 then "id0" else "id"
  zero := { id := 0 }
  isInterface := false
  dynamicIsZero _ := false
  stored v := v

/-- The index 0, the zero value, of weight 5. -/
def id0 : ServerID := { id := 0 }
/-- The index 1, of weight 1. -/
def id1 : ServerID := { id := 1 }

/-- The pool `[0, 1]` of indices with every accumulator at 0. -/
def poolID : State ServerID := { servers := [id0, id1], curWeight := fun _ => 0 }
/-- The pool `[0]` holding only the zero value. -/
def poolID0 : State ServerID := { servers := [id0], curWeight := fun _ => 0 }

/-! ### A candidate type that is an interface type -/

/-- A value of an interface type implemented by `*Server`: `none` is the nil
interface, `some p` holds the pointer `p`. -/
structure ServerIface where
  /-- The pointer held; `none` for the nil interface. -/
  held : Option ServerPtr
  deriving DecidableEq

instance : WeightedServer ServerIface where
  GetWeight v := match v.held with
    | some p => GetWeight p
    | none => 0
  GetName v := match v.held with
    | some p => GetName p
    | none => ""
  zero := { held := none }
  isInterface := true
  dynamicIsZero v := match v.held with
    | some p => p.isNone
    | none => true
  stored v := v

/-- The interface value holding `A`. -/
def ifaceA : ServerIface := { held := some srvA }
/-- The interface value holding `B`. -/
def ifaceB : ServerIface := { held := some srvB }
/-- The nil interface. -/
def ifaceNil : ServerIface := { held := none }

/-- The pool `[A, B]` of interface values with every accumulator at 0. -/
def poolIface : State ServerIface := { servers := [ifaceA, ifaceB], curWeight := fun _ => 0 }

end Balancer

/-!
# The instance registry (`instance/instance.go`)

`Manager[T]` keeps its entries in a `sync.Map` that only `Add` writes, always
with a value of type `T` that passed the `isNil` test; the map is therefore
modelled as a finite map from names to values of type `T`, and the
type-assertion failure branches of `Load` and `Remove` cannot be reached.  The
calls of `Destroy()` are recorded, in order, in the field `destroyed`.
-/

namespace Registry

/-- What the registry asks of a value of type `T`: whether `any(v) == nil`, and
whether the value implements `Destroyable`. -/
class Value (T : Type) where
  /-- The test `any(v) == nil` of `isNil`. -/
  isNil : T → Bool
  /-- Whether the assertion `any(instance).(Destroyable)` succeeds. -/
  destroyable : T → Bool

/-- The errors the methods of `Manager` return. -/
inductive Error where
  /-- Result of `Load` on an unknown name: `instance not found`. -/
  | notFound (key : String)
  /-- Result of `Add` on a nil value: `cannot store nil instance`. -/
  | nilInstance (key : String)
  /-- Result of `Remove` on an unknown name: `warn: no instance to remove`. -/
  | nothingToRemove (key : String)
  deriving DecidableEq

/-- The type `Manager[T]`: the entries of `instances`, and the `Destroy()`
calls made so far. -/
structure Manager (T : Type) where
  /-- Field `instances sync.Map`. -/
  instances : String → Option T
  /-- The values on which `Destroy()` was called, oldest first. -/
  destroyed : List T

/-- The constructor `NewManager`. -/
def NewManager (T : Type) : Manager T := { instances := fun _ => none, destroyed := [] }

/-- Method `Load`. -/
def Load {T : Type} (m : Manager T) (key : String) : Except Error T :=
  match m.instances key with
  | none => Except.error (Error.notFound key)
  | some inst => Except.ok inst

/-- Method `Exists`. -/
def Exists {T : Type} (m : Manager T) (key : String) : Bool :=
  (m.instances key).isSome

/-- Method `Remove`: `LoadAndDelete`, then `Destroy()` when the value is
`Destroyable`.  Returns the error (`none` for `nil`) and the registry after the
call. -/
def Remove {T : Type} [Value T] (m : Manager T) (key : String) : Option Error × Manager T :=
  match m.instances key with
  | none => (some (Error.nothingToRemove key), m)
  | some inst =>
    let deleted := Function.update m.instances key none
    if Value.destroyable inst then
      (none, { instances := deleted, destroyed := m.destroyed ++ [inst] })
    else
      (none, { instances := deleted, destroyed := m.destroyed })

/-- Method `Add`.  Returns the error (`none` for `nil`) and the registry after
the call. -/
def Add {T : Type} [Value T] (m : Manager T) (key : String) (inst : T) :
    Option Error × Manager T :=
  if Value.isNil inst then
    (some (Error.nilInstance key), m)
  else
    let m1 := if Exists m key then (Remove m key).2 else m
    (none, { instances := Function.update m1.instances key (some inst),
             destroyed := m1.destroyed })

/-- A database handle as in `TestInstance`: a name, and whether the type has a
`Destroy` method. -/
structure DBInstance where
  /-- Field `name`. -/
  name : String
  /-- Whether the value implements `Destroyable`. -/
  hasDestroy : Bool
  deriving DecidableEq

/-- A value of an interface type over `DBInstance`: `none` is the nil
interface. -/
abbrev DBValue := Option DBInstance

instance : Value DBValue where
  isNil v := v.isNone
  destroyable v := match v with
    | some d => d.hasDestroy
    | none => false

/-- The database `db0`, with a `Destroy` method. -/
def db0 : DBValue := some { name := "db0", hasDestroy := true }
/-- The database `db1`, with a `Destroy` method. -/
def db1 : DBValue := some { name := "db1", hasDestroy := true }
/-- The database `db2`, without a `Destroy` method. -/
def db2 : DBValue := some { name := "db2", hasDestroy := false }

/-- The registry holding `db0` under `"0"` and `db2` under `"2"`. -/
def registry02 : Manager DBValue :=
  { instances := fun k => if k = "0" then some db0 else if k = "2" then some db2 else none
    destroyed := [] }

end Registry

namespace Balancer

open WeightedServer

variable {T : Type} [DecidableEq T] [WeightedServer T]

/-! ### Construction -/

theorem validServers_foldl (l acc : List T) :
    l.foldl (fun validServers s => if GetWeight s > 0 then validServers ++ [s] else validServers) acc
      = acc ++ l.filter (fun s => decide (GetWeight s > 0)) := by
  induction l generalizing acc with
  | nil => simp
  | cons a l ih =>
    simp only [List.foldl_cons, ih, List.filter_cons]
    by_cases h : GetWeight a > 0 <;> simp [h]

theorem new_servers (l : List T) (cw : T → Int) :
    (NewSmoothWeightedRoundRobin l cw).servers = l.filter (fun s => decide (GetWeight s > 0)) := by
  simp [NewSmoothWeightedRoundRobin, validServers_foldl]

/-! ### The reference scan -/

theorem selectScanZ_append (l : List T) (a : T) (cw : T → Int) :
    selectScanZ (l ++ [a]) cw = selectStepZ (selectScanZ l cw) a := by
  simp [selectScanZ, List.foldl_append]

theorem selectScanZ_totalWeight (l : List T) (cw : T → Int) :
    (selectScanZ l cw).totalWeight = totalWeightOf l := by
  induction l using List.reverseRecOn with
  | nil => simp [selectScanZ, totalWeightOf]
  | append_singleton l a ih =>
    rw [selectScanZ_append]
    simp only [selectStepZ]
    split <;> simp [ih, totalWeightOf]

/-- The store after the scan: every scanned handle was incremented once (no
handle occurs twice). -/
theorem selectScanZ_cw (l : List T) (cw : T → Int) (hnd : l.Nodup) (t : T) :
    (selectScanZ l cw).cw t = if t ∈ l then cw t + GetWeight t else cw t := by
  induction l using List.reverseRecOn with
  | nil => simp [selectScanZ]
  | append_singleton l a ih =>
    rw [selectScanZ_append]
    have hnd2 : l.Nodup := (List.nodup_append.mp hnd).1
    have hal : a ∉ l := by
      intro h
      exact (List.nodup_append.mp hnd).2.2 h (by simp)
    have hcw : (selectStepZ (selectScanZ l cw) a).cw
        = Function.update (selectScanZ l cw).cw a ((selectScanZ l cw).cw a + GetWeight a) := by
      simp only [selectStepZ, SetCurrentWeight, GetCurrentWeight]
      split <;> rfl
    rw [hcw]
    by_cases hta : t = a
    · subst hta
      simp [ih hnd2, hal]
    · simp [Function.update_noteq hta, ih hnd2, hta]

theorem selectScanZ_selected_nil (cw : T → Int) :
    (selectScanZ ([] : List T) cw).selected = zero := rfl

theorem selectScanZ_selected_mem (l : List T) (cw : T → Int) (hne : l ≠ []) :
    (selectScanZ l cw).selected ∈ l := by
  induction l using List.reverseRecOn with
  | nil => exact absurd rfl hne
  | append_singleton l a ih =>
    rw [selectScanZ_append]
    simp only [selectStepZ]
    split
    · simp
    · rename_i hc
      by_cases hl : l = []
      · subst hl
        simp [selectScanZ, isZeroZ] at hc
      · simp [ih hl]

/-- The selected handle carries a maximal incremented accumulator. -/
theorem selectScanZ_selected_max (l : List T) (cw : T → Int) (hnd : l.Nodup)
    (hnz : (zero : T) ∉ l) (t : T) (ht : t ∈ l) :
    (selectScanZ l cw).cw t ≤ (selectScanZ l cw).cw (selectScanZ l cw).selected := by
  induction l using List.reverseRecOn with
  | nil => simp at ht
  | append_singleton l a ih =>
    have hnd2 : l.Nodup := (List.nodup_append.mp hnd).1
    have hal : a ∉ l := by
      intro h
      exact (List.nodup_append.mp hnd).2.2 h (by simp)
    have hnz2 : (zero : T) ∉ l := fun h => hnz (by simp [h])
    rw [selectScanZ_append]
    by_cases hl : l = []
    · subst hl
      simp at ht
      subst ht
      simp [selectScanZ, selectStepZ, isZeroZ]
    · have hsel := selectScanZ_selected_mem l cw hl
      have hsa : (selectScanZ l cw).selected ≠ a := fun h => hal (h ▸ hsel)
      have hsz : isZeroZ (selectScanZ l cw).selected = false := by
        simp only [isZeroZ, decide_eq_false_iff_not]
        intro h
        exact hnz2 (h ▸ hsel)
      simp only [selectStepZ, SetCurrentWeight, GetCurrentWeight, hsz, Bool.false_or,
        Function.update_same, Function.update_noteq hsa, decide_eq_true_eq]
      rcases List.mem_append.mp ht with htl | hta
      · have hta : t ≠ a := fun h => hal (h ▸ htl)
        have := ih hnd2 hnz2 htl
        split
        · simp only [Function.update_same, Function.update_noteq hta]; omega
        · simp only [Function.update_noteq hsa, Function.update_noteq hta]; omega
      · simp at hta
        subst hta
        split
        · simp
        · simp only [Function.update_same, Function.update_noteq hsa]; omega

/-! ### One reference call -/

theorem SelectZ_servers (s : State T) : (SelectZ s).2.servers = s.servers := by
  unfold SelectZ
  split <;> rfl

theorem SelectZ_nil (s : State T) (h : s.servers = []) : SelectZ s = (zero, s) := by
  simp [SelectZ, h]

theorem SelectZ_fst (s : State T) (hne : s.servers ≠ []) :
    (SelectZ s).1 = (selectScanZ s.servers s.curWeight).selected := by
  have : s.servers.length ≠ 0 := by simpa using hne
  simp [SelectZ, this]

theorem SelectZ_mem (s : State T) (hne : s.servers ≠ []) : (SelectZ s).1 ∈ s.servers := by
  rw [SelectZ_fst s hne]
  exact selectScanZ_selected_mem _ _ hne

/-- The store after one `SelectZ` on a pool without repeated handles. -/
theorem SelectZ_curWeight (s : State T) (hne : s.servers ≠ []) (hnd : s.servers.Nodup) (t : T) :
    (SelectZ s).2.curWeight t
      = (if t ∈ s.servers then s.curWeight t + GetWeight t else s.curWeight t)
        - (if t = (SelectZ s).1 then totalWeightOf s.servers else 0) := by
  have hlen : s.servers.length ≠ 0 := by simpa using hne
  have hsel := SelectZ_fst s hne
  by_cases h : t = (SelectZ s).1
  · rw [if_pos h]
    rw [hsel] at h
    simp only [SelectZ, hlen, if_false, SetCurrentWeight, GetCurrentWeight]
    rw [h, Function.update_same, selectScanZ_totalWeight, selectScanZ_cw _ _ hnd]
  · rw [if_neg h]
    rw [hsel] at h
    simp only [SelectZ, hlen, if_false, SetCurrentWeight, GetCurrentWeight]
    rw [Function.update_noteq h, selectScanZ_cw _ _ hnd]
    simp

theorem sum_map_sub_int (l : List T) (f g : T → Int) :
    (l.map (fun t => f t - g t)).sum = (l.map f).sum - (l.map g).sum := by
  induction l with
  | nil => simp
  | cons a l ih => simp only [List.map_cons, List.sum_cons, ih]; omega

theorem sum_map_add_int (l : List T) (f g : T → Int) :
    (l.map (fun t => f t + g t)).sum = (l.map f).sum + (l.map g).sum := by
  induction l with
  | nil => simp
  | cons a l ih => simp only [List.map_cons, List.sum_cons, ih]; omega

theorem sum_map_indicator (l : List T) (a : T) (W : Int) (hnd : l.Nodup) (ha : a ∈ l) :
    (l.map (fun t => if t = a then W else 0)).sum = W := by
  induction l with
  | nil => simp at ha
  | cons b l ih =>
    have hb : b ∉ l := (List.nodup_cons.mp hnd).1
    have hnd2 := (List.nodup_cons.mp hnd).2
    by_cases hba : b = a
    · subst hba
      have : l.map (fun t => if t = b then W else 0) = l.map (fun _ => (0 : Int)) := by
        apply List.map_congr_left
        intro t ht
        have : t ≠ b := fun h => hb (h ▸ ht)
        simp [this]
      simp [this]
    · have hal : a ∈ l := by
        rcases List.mem_cons.mp ha with h | h
        · exact absurd h.symm hba
        · exact h
      simp [hba, ih hnd2 hal]

/-- One `SelectZ` leaves the sum of the accumulators of the pool unchanged. -/
theorem SelectZ_curWeightSum (s : State T) (hnd : s.servers.Nodup) :
    curWeightSum s.servers (SelectZ s).2.curWeight = curWeightSum s.servers s.curWeight := by
  by_cases hne : s.servers = []
  · simp [SelectZ_nil s hne]
  · have hmem := SelectZ_mem s hne
    have h1 : s.servers.map (SelectZ s).2.curWeight
        = s.servers.map (fun t => (s.curWeight t + GetWeight t)
            - (if t = (SelectZ s).1 then totalWeightOf s.servers else 0)) := by
      apply List.map_congr_left
      intro t ht
      rw [SelectZ_curWeight s hne hnd t, if_pos ht]
    unfold curWeightSum
    rw [h1, sum_map_sub_int, sum_map_add_int, sum_map_indicator _ _ _ hnd hmem]
    simp [totalWeightOf]

/-- The returned handle has a maximal incremented accumulator among the pool
members. -/
theorem SelectZ_max (s : State T) (hne : s.servers ≠ []) (hnd : s.servers.Nodup)
    (hnz : (zero : T) ∉ s.servers) (t : T) (ht : t ∈ s.servers) :
    s.curWeight t + GetWeight t ≤ s.curWeight (SelectZ s).1 + GetWeight (SelectZ s).1 := by
  have h := selectScanZ_selected_max s.servers s.curWeight hnd hnz t ht
  have hm := SelectZ_mem s hne
  rw [SelectZ_fst s hne] at hm ⊢
  rw [selectScanZ_cw _ _ hnd, selectScanZ_cw _ _ hnd, if_pos ht, if_pos hm] at h
  exact h

theorem sum_map_nonpos (l : List T) (f : T → Int) (h : ∀ t ∈ l, f t ≤ 0) :
    (l.map f).sum ≤ 0 := by
  induction l with
  | nil => simp
  | cons a l ih =>
    have h1 := h a (by simp)
    have h2 := ih (fun t ht => h t (by simp [ht]))
    simp only [List.map_cons, List.sum_cons]
    omega

theorem totalWeightOf_nonneg (l : List T) (hw : ∀ t ∈ l, 0 < GetWeight t) :
    0 ≤ totalWeightOf l := by
  induction l with
  | nil => simp [totalWeightOf]
  | cons a l ih =>
    have h1 := hw a (by simp)
    have h2 := ih (fun t ht => hw t (by simp [ht]))
    simp only [totalWeightOf, List.map_cons, List.sum_cons] at h2 ⊢
    omega

theorem totalWeightOf_pos (l : List T) (hne : l ≠ []) (hw : ∀ t ∈ l, 0 < GetWeight t) :
    0 < totalWeightOf l := by
  cases l with
  | nil => exact absurd rfl hne
  | cons a l =>
    have h1 := hw a (by simp)
    have h2 := totalWeightOf_nonneg l (fun t ht => hw t (by simp [ht]))
    simp only [totalWeightOf, List.map_cons, List.sum_cons] at h2 ⊢
    omega

theorem SelectZ_ledgerInv (s : State T) (hne : s.servers ≠ []) (hnd : s.servers.Nodup)
    (hnz : (zero : T) ∉ s.servers) (hw : ∀ t ∈ s.servers, 0 < GetWeight t)
    (hinv : LedgerInv s) : LedgerInv (SelectZ s).2 := by
  obtain ⟨hsum, hlow⟩ := hinv
  refine ⟨?_, ?_⟩
  · rw [SelectZ_servers, SelectZ_curWeightSum s hnd, hsum]
  · rw [SelectZ_servers]
    intro t ht
    rw [SelectZ_curWeight s hne hnd t, if_pos ht]
    have hwt := hw t ht
    have hlt := hlow t ht
    by_cases hsel : t = (SelectZ s).1
    · rw [if_pos hsel]
      -- the maximum of the incremented accumulators is positive
      by_contra hc
      have hmax : ∀ u ∈ s.servers, s.curWeight u + GetWeight u ≤ 0 := by
        intro u hu
        have := SelectZ_max s hne hnd hnz u hu
        rw [← hsel] at this
        omega
      have h1 := sum_map_nonpos s.servers (fun u => s.curWeight u + GetWeight u) hmax
      rw [sum_map_add_int] at h1
      have hW := totalWeightOf_pos s.servers hne hw
      unfold curWeightSum at hsum
      unfold totalWeightOf at hW
      omega
    · rw [if_neg hsel]
      omega

theorem selectNZ_servers (n : Nat) (s : State T) : (selectNZ n s).2.servers = s.servers := by
  induction n generalizing s with
  | zero => rfl
  | succ n ih => simp [selectNZ, ih, SelectZ_servers]

theorem selectNZ_length (n : Nat) (s : State T) : (selectNZ n s).1.length = n := by
  induction n generalizing s with
  | zero => rfl
  | succ n ih => simp [selectNZ, ih]

theorem selectNZ_mem (n : Nat) (s : State T) (hne : s.servers ≠ []) :
    ∀ o ∈ (selectNZ n s).1, o ∈ s.servers := by
  induction n generalizing s with
  | zero => simp [selectNZ]
  | succ n ih =>
    intro o ho
    simp only [selectNZ, List.mem_cons] at ho
    rcases ho with h | h
    · exact h ▸ SelectZ_mem s hne
    · have := ih (SelectZ s).2 (by rw [SelectZ_servers]; exact hne) o h
      rwa [SelectZ_servers] at this

theorem selectNZ_curWeightSum (n : Nat) (s : State T) (hnd : s.servers.Nodup) :
    curWeightSum s.servers (selectNZ n s).2.curWeight = curWeightSum s.servers s.curWeight := by
  induction n generalizing s with
  | zero => rfl
  | succ n ih =>
    simp only [selectNZ]
    have := ih (SelectZ s).2 (by rw [SelectZ_servers]; exact hnd)
    rw [SelectZ_servers] at this
    rw [this, SelectZ_curWeightSum s hnd]

theorem selectNZ_ledgerInv (n : Nat) (s : State T) (hne : s.servers ≠ []) (hnd : s.servers.Nodup)
    (hnz : (zero : T) ∉ s.servers) (hw : ∀ t ∈ s.servers, 0 < GetWeight t)
    (hinv : LedgerInv s) : LedgerInv (selectNZ n s).2 := by
  induction n generalizing s with
  | zero => exact hinv
  | succ n ih =>
    simp only [selectNZ]
    apply ih (SelectZ s).2
    · rw [SelectZ_servers]; exact hne
    · rw [SelectZ_servers]; exact hnd
    · rw [SelectZ_servers]; exact hnz
    · rw [SelectZ_servers]; exact hw
    · exact SelectZ_ledgerInv s hne hnd hnz hw hinv

/-- The ledger equation of a run: after `n` calls the accumulator of a pool
member is its start value plus `n` times its weight minus the total weight for
each time it was returned. -/
theorem selectNZ_ledger (n : Nat) (s : State T) (hne : s.servers ≠ []) (hnd : s.servers.Nodup)
    (t : T) (ht : t ∈ s.servers) :
    (selectNZ n s).2.curWeight t
      = s.curWeight t + n * GetWeight t - totalWeightOf s.servers * ((selectNZ n s).1.count t) := by
  induction n generalizing s with
  | zero => simp [selectNZ]
  | succ n ih =>
    simp only [selectNZ]
    have h := ih (SelectZ s).2 (by rw [SelectZ_servers]; exact hne)
      (by rw [SelectZ_servers]; exact hnd) (by rw [SelectZ_servers]; exact ht)
    rw [SelectZ_servers] at h
    rw [h, SelectZ_curWeight s hne hnd t, if_pos ht, List.count_cons]
    by_cases hsel : t = (SelectZ s).1
    · rw [if_pos hsel]
      have : ((SelectZ s).1 == t) = true := by simp [hsel]
      rw [if_pos this]
      push_cast
      ring
    · rw [if_neg hsel]
      have : ¬ (((SelectZ s).1 == t) = true) := by
        simp only [beq_iff_eq]
        exact fun h => hsel h.symm
      rw [if_neg this]
      push_cast
      ring

/-! ### Counting the returned handles -/

theorem sum_map_count (l outs : List T) (hnd : l.Nodup) (hmem : ∀ o ∈ outs, o ∈ l) :
    (l.map (fun t => ((outs.count t : Nat) : Int))).sum = outs.length := by
  induction outs with
  | nil => simp
  | cons o outs ih =>
    have h1 := ih (fun x hx => hmem x (by simp [hx]))
    have ho : o ∈ l := hmem o (by simp)
    have h2 : l.map (fun t => (((o :: outs).count t : Nat) : Int))
        = l.map (fun t => ((outs.count t : Nat) : Int) + (if t = o then 1 else 0)) := by
      apply List.map_congr_left
      intro t _
      rw [List.count_cons]
      by_cases hto : t = o
      · subst hto; simp
      · have : ¬ ((o == t) = true) := by
          simp only [beq_iff_eq]
          exact fun h => hto h.symm
        simp [hto, this]
    rw [h2, sum_map_add_int, h1, sum_map_indicator l o 1 hnd ho]
    simp

theorem sum_map_le_int (l : List T) (f g : T → Int) (h : ∀ t ∈ l, f t ≤ g t) :
    (l.map f).sum ≤ (l.map g).sum := by
  induction l with
  | nil => simp
  | cons a l ih =>
    have h1 := h a (by simp)
    have h2 := ih (fun t ht => h t (by simp [ht]))
    simp only [List.map_cons, List.sum_cons]
    omega

theorem eq_of_le_of_sum_eq (l : List T) (f g : T → Int) (h : ∀ t ∈ l, f t ≤ g t)
    (hs : (l.map f).sum = (l.map g).sum) : ∀ t ∈ l, f t = g t := by
  induction l with
  | nil => simp
  | cons a l ih =>
    have h1 := h a (by simp)
    have h2 := sum_map_le_int l f g (fun t ht => h t (by simp [ht]))
    simp only [List.map_cons, List.sum_cons] at hs
    intro t ht
    rcases List.mem_cons.mp ht with hta | htl
    · subst hta; omega
    · exact ih (fun t ht => h t (by simp [ht])) (by omega) t htl

theorem sum_map_const_mul (l : List T) (k : Int) (f : T → Int) :
    (l.map (fun t => k * f t)).sum = k * (l.map f).sum := by
  induction l with
  | nil => simp
  | cons a l ih => simp only [List.map_cons, List.sum_cons, ih]; ring

/-- Whole cycles from a zeroed ledger: after `k * W` calls every pool member
was returned `k` times its weight. -/
theorem selectNZ_count_cycles (s : State T) (hne : s.servers ≠ []) (hnd : s.servers.Nodup)
    (hnz : (zero : T) ∉ s.servers) (hw : ∀ t ∈ s.servers, 0 < GetWeight t)
    (hcw : ∀ t ∈ s.servers, s.curWeight t = 0) (k : Nat) :
    ∀ t ∈ s.servers,
      (((selectNZ (k * (totalWeightOf s.servers).toNat) s).1.count t : Nat) : Int)
        = k * GetWeight t := by
  have hW := totalWeightOf_pos s.servers hne hw
  have hWn : (((totalWeightOf s.servers).toNat : Nat) : Int) = totalWeightOf s.servers :=
    Int.toNat_of_nonneg hW.le
  have hinv0 : LedgerInv s := by
    refine ⟨?_, ?_⟩
    · unfold curWeightSum
      have : s.servers.map s.curWeight = s.servers.map (fun _ => (0 : Int)) :=
        List.map_congr_left hcw
      rw [this]; simp
    · intro t ht; rw [hcw t ht]; omega
  have hinv := selectNZ_ledgerInv (k * (totalWeightOf s.servers).toNat) s hne hnd hnz hw hinv0
  have hle : ∀ t ∈ s.servers,
      (((selectNZ (k * (totalWeightOf s.servers).toNat) s).1.count t : Nat) : Int)
        ≤ k * GetWeight t := by
    intro t ht
    have hl := selectNZ_ledger (k * (totalWeightOf s.servers).toNat) s hne hnd t ht
    have hlow := hinv.2 t (by rw [selectNZ_servers]; exact ht)
    rw [selectNZ_servers, hl, hcw t ht] at hlow
    push_cast at hlow
    rw [hWn] at hlow
    by_contra hc
    have hc2 : (k : Int) * GetWeight t + 1
        ≤ (((selectNZ (k * (totalWeightOf s.servers).toNat) s).1.count t : Nat) : Int) := by
      omega
    have := mul_le_mul_of_nonneg_left hc2 hW.le
    nlinarith
  have hsum : (s.servers.map (fun t =>
      (((selectNZ (k * (totalWeightOf s.servers).toNat) s).1.count t : Nat) : Int))).sum
        = (s.servers.map (fun t => (k : Int) * GetWeight t)).sum := by
    rw [sum_map_count _ _ hnd (selectNZ_mem _ s hne), selectNZ_length, sum_map_const_mul]
    push_cast
    rw [hWn]
    rfl
  exact eq_of_le_of_sum_eq s.servers _ _ hle hsum

theorem new_servers_of_pos (l : List T) (cw : T → Int) (hw : ∀ t ∈ l, 0 < GetWeight t) :
    (NewSmoothWeightedRoundRobin l cw).servers = l := by
  rw [new_servers]
  apply List.filter_eq_self.mpr
  intro t ht
  simpa using hw t ht

theorem selectNZ_nil (n : Nat) (s : State T) (h : s.servers = []) :
    selectNZ n s = (List.replicate n zero, s) := by
  induction n with
  | zero => rfl
  | succ n ih => simp [selectNZ, SelectZ_nil s h, ih, List.replicate_succ]


/-! ### The first maximum of the reference scan -/

theorem membersBefore_split (pre : List T) (x : T) (post : List T) (hx : x ∉ pre) :
    membersBefore (pre ++ x :: post) x = pre := by
  induction pre with
  | nil => simp [membersBefore]
  | cons a pre ih =>
    have ha : a ≠ x := fun h => hx (by simp [h])
    have hx2 : x ∉ pre := fun h => hx (by simp [h])
    show membersBefore (a :: (pre ++ x :: post)) x = a :: pre
    simp only [membersBefore, if_neg ha, ih hx2]

/-- The handle selected by the scan is the first one carrying the maximum: every
handle scanned before it carries strictly less. -/
theorem selectScanZ_selected_first (l : List T) (cw : T → Int) (hne : l ≠ []) (hnd : l.Nodup)
    (hnz : (zero : T) ∉ l) :
    ∃ pre post, l = pre ++ (selectScanZ l cw).selected :: post ∧
      ∀ t ∈ pre, (selectScanZ l cw).cw t < (selectScanZ l cw).cw (selectScanZ l cw).selected := by
  induction l using List.reverseRecOn with
  | nil => exact absurd rfl hne
  | append_singleton l a ih =>
    have hnd2 : l.Nodup := (List.nodup_append.mp hnd).1
    have hal : a ∉ l := by
      intro h
      exact (List.nodup_append.mp hnd).2.2 h (by simp)
    have hnz2 : (zero : T) ∉ l := fun h => hnz (by simp [h])
    rw [selectScanZ_append]
    by_cases hl : l = []
    · subst hl
      refine ⟨[], [], ?_, by simp⟩
      simp [selectScanZ, selectStepZ, isZeroZ]
    · have hsel := selectScanZ_selected_mem l cw hl
      have hsa : (selectScanZ l cw).selected ≠ a := fun h => hal (h ▸ hsel)
      have hsz : isZeroZ (selectScanZ l cw).selected = false := by
        simp only [isZeroZ, decide_eq_false_iff_not]
        intro h
        exact hnz2 (h ▸ hsel)
      obtain ⟨pre, post, hsplit, hpre⟩ := ih hl hnd2 hnz2
      have hmax := selectScanZ_selected_max l cw hnd2 hnz2
      simp only [selectStepZ, SetCurrentWeight, GetCurrentWeight, hsz, Bool.false_or,
        Function.update_same, Function.update_noteq hsa, decide_eq_true_eq]
      split
      · rename_i hgt
        refine ⟨l, [], rfl, ?_⟩
        intro t ht
        have hta : t ≠ a := fun h => hal (h ▸ ht)
        have := hmax t ht
        simp only [Function.update_same, Function.update_noteq hta]
        omega
      · refine ⟨pre, post ++ [a], ?_, ?_⟩
        · conv_lhs => rw [hsplit]
          simp
        · intro t ht
          have htl : t ∈ l := by rw [hsplit]; simp [ht]
          have hta : t ≠ a := fun h => hal (h ▸ htl)
          simp only [Function.update_noteq hsa, Function.update_noteq hta]
          exact hpre t ht

/-- Every member before the returned one has a strictly smaller incremented
accumulator. -/
theorem SelectZ_first (s : State T) (hne : s.servers ≠ []) (hnd : s.servers.Nodup)
    (hnz : (zero : T) ∉ s.servers) (t : T) (ht : t ∈ membersBefore s.servers (SelectZ s).1) :
    s.curWeight t + GetWeight t < s.curWeight (SelectZ s).1 + GetWeight (SelectZ s).1 := by
  obtain ⟨pre, post, hsplit, hpre⟩ := selectScanZ_selected_first s.servers s.curWeight hne hnd hnz
  have hm := SelectZ_mem s hne
  rw [SelectZ_fst s hne] at hm ht ⊢
  have hnot : (selectScanZ s.servers s.curWeight).selected ∉ pre := by
    have key0 : ∀ sel : T, s.servers = pre ++ sel :: post → sel ∉ pre := by
      intro sel h1 h
      have hnd3 := hnd
      rw [h1] at hnd3
      exact (List.nodup_append.mp hnd3).2.2 h (by simp)
    exact key0 _ hsplit
  have key : ∀ sel : T, s.servers = pre ++ sel :: post → sel ∉ pre →
      membersBefore s.servers sel = pre := by
    intro sel h1 h2
    rw [h1]
    exact membersBefore_split pre sel post h2
  have hb := key _ hsplit hnot
  rw [hb] at ht
  have htl : t ∈ s.servers := by
    have key1 : ∀ sel : T, s.servers = pre ++ sel :: post → t ∈ s.servers := by
      intro sel h1
      rw [h1]
      simp [ht]
    exact key1 _ hsplit
  have h := hpre t ht
  rw [selectScanZ_cw _ _ hnd, selectScanZ_cw _ _ hnd, if_pos htl, if_pos hm] at h
  exact h


/-! ### The code against the reference -/

theorem wrapInt_of_fits (x : Int) (h : fitsInt x = true) : wrapInt x = x := by
  simp only [fitsInt, Bool.and_eq_true, decide_eq_true_eq] at h
  unfold wrapInt
  omega

theorem isZero_of_not_interface (hI : isInterface T = false) (v : T) :
    isZero v = some (isZeroZ v) := by
  simp [isZero, isZeroZ, hI]

theorem selectScan_append (l : List T) (a : T) (cw : T → Int) :
    selectScan (l ++ [a]) cw = selectStep (selectScan l cw) a := by
  simp [selectScan, List.foldl_append]

/-- One iteration of the loop when `isZero` cannot panic. -/
theorem selectStep_of_not_interface (hI : isInterface T = false) (st : Scan T) (a : T)
    (hp : st.panicked = false) :
    selectStep st a =
      { totalWeight := wrapInt (st.totalWeight + GetWeight a)
        selected :=
          if isZeroZ st.selected
              || decide (Function.update st.cw a (stored T (wrapInt (st.cw a + GetWeight a))) a
                  > Function.update st.cw a (stored T (wrapInt (st.cw a + GetWeight a)))
                      st.selected)
          then a else st.selected
        cw := Function.update st.cw a (stored T (wrapInt (st.cw a + GetWeight a)))
        panicked := false
        overflow := st.overflow || !fitsInt (st.totalWeight + GetWeight a)
          || !fitsInt (st.cw a + GetWeight a)
          || decide (stored T (wrapInt (st.cw a + GetWeight a))
              ≠ wrapInt (st.cw a + GetWeight a)) } := by
  simp only [selectStep, hp, Bool.false_eq_true, if_false, isZero_of_not_interface hI,
    GetCurrentWeight, SetCurrentWeight]
  split <;> rfl

theorem selectStepZ_eq (st : ScanZ T) (a : T) :
    selectStepZ st a =
      { totalWeight := st.totalWeight + GetWeight a
        selected :=
          if isZeroZ st.selected
              || decide (Function.update st.cw a (st.cw a + GetWeight a) a
                  > Function.update st.cw a (st.cw a + GetWeight a) st.selected)
          then a else st.selected
        cw := Function.update st.cw a (st.cw a + GetWeight a) } := by
  simp only [selectStepZ]
  split <;> rfl

/-- The loop of `Select` does not panic when `T` is not an interface type, and
computes what the reference scan computes as long as no sum overflows. -/
theorem selectScan_refines (hI : isInterface T = false) (l : List T) (cw : T → Int) :
    (selectScan l cw).panicked = false ∧
    ((selectScan l cw).overflow = false →
      (selectScan l cw).totalWeight = (selectScanZ l cw).totalWeight ∧
      (selectScan l cw).selected = (selectScanZ l cw).selected ∧
      (selectScan l cw).cw = (selectScanZ l cw).cw) := by
  induction l using List.reverseRecOn with
  | nil => simp [selectScan, selectScanZ]
  | append_singleton l a ih =>
    obtain ⟨hp, hz⟩ := ih
    rw [selectScan_append, selectScanZ_append, selectStep_of_not_interface hI _ a hp,
      selectStepZ_eq]
    refine ⟨rfl, ?_⟩
    intro hov
    simp only [Bool.or_eq_false_iff, Bool.not_eq_false', decide_eq_false_iff_not,
      not_not] at hov
    obtain ⟨⟨⟨h0, h1⟩, h2⟩, h3⟩ := hov
    obtain ⟨e1, e2, e3⟩ := hz h0
    rw [e1] at h1
    rw [e3] at h2 h3
    rw [wrapInt_of_fits _ h2] at h3
    rw [e1, e2, e3, wrapInt_of_fits _ h1, wrapInt_of_fits _ h2, h3]
    exact ⟨rfl, rfl, rfl⟩

/-- The overflow flag of the loop only grows. -/
theorem selectScan_overflow_prefix (hI : isInterface T = false) (l : List T) (a : T)
    (cw : T → Int) (h : (selectScan (l ++ [a]) cw).overflow = false) :
    (selectScan l cw).overflow = false := by
  have hp := (selectScan_refines hI l cw).1
  rw [selectScan_append, selectStep_of_not_interface hI _ a hp] at h
  simp only [Bool.or_eq_false_iff] at h
  exact h.1.1.1

/-- One `Select` call against the reference: without overflow, and with `T` not
an interface type, it returns what the reference returns and leaves the state
the reference leaves. -/
theorem Select_refines (hI : isInterface T = false) (s : State T)
    (hov : (Select s).overflow = false) :
    (Select s).value = some (SelectZ s).1 ∧ (Select s).state = (SelectZ s).2 := by
  by_cases hlen : s.servers.length = 0
  · simp [Select, SelectZ, hlen]
  · obtain ⟨hp, hz⟩ := selectScan_refines hI s.servers s.curWeight
    simp only [Select, hlen, if_false, hp, Bool.false_eq_true, GetCurrentWeight,
      SetCurrentWeight, Bool.or_eq_false_iff, Bool.not_eq_false', decide_eq_false_iff_not,
      not_not] at hov ⊢
    obtain ⟨e1, e2, e3⟩ := hz hov.1.1
    have h2 := hov.1.2
    have h3 := hov.2
    rw [e1, e2, e3] at h2 h3
    rw [wrapInt_of_fits _ h2] at h3
    simp only [SelectZ, hlen, if_false]
    rw [e1, e2, e3, wrapInt_of_fits _ h2, h3]
    exact ⟨rfl, rfl⟩

theorem Select_servers (s : State T) : (Select s).state.servers = s.servers := by
  unfold Select
  split
  · rfl
  · simp only
    split <;> rfl

theorem Select_nil (s : State T) (h : s.servers = []) :
    Select s = { value := some zero, state := s, overflow := false } := by
  simp [Select, h]

theorem selectN_servers (n : Nat) (s : State T) : (selectN n s).state.servers = s.servers := by
  induction n generalizing s with
  | zero => rfl
  | succ n ih => simp [selectN, ih, Select_servers]

theorem selectN_length (n : Nat) (s : State T) : (selectN n s).values.length = n := by
  induction n generalizing s with
  | zero => rfl
  | succ n ih => simp [selectN, ih]

theorem selectN_nil (n : Nat) (s : State T) (h : s.servers = []) :
    selectN n s = { values := List.replicate n (some zero), state := s, overflow := false } := by
  induction n with
  | zero => rfl
  | succ n ih => simp [selectN, Select_nil s h, ih, List.replicate_succ]

/-- A run against the reference run. -/
theorem selectN_refines (hI : isInterface T = false) (n : Nat) (s : State T)
    (hov : (selectN n s).overflow = false) :
    (selectN n s).values = (selectNZ n s).1.map some ∧
      (selectN n s).state = (selectNZ n s).2 := by
  induction n generalizing s with
  | zero => simp [selectN, selectNZ]
  | succ n ih =>
    simp only [selectN, Bool.or_eq_false_iff] at hov
    obtain ⟨hv, hs⟩ := Select_refines hI s hov.1
    have h2 := ih (Select s).state hov.2
    simp only [selectN, selectNZ, hv, List.map_cons, List.cons.injEq, true_and]
    rw [← hs]
    exact h2

theorem selectN_overflow_add (m n : Nat) (s : State T) :
    (selectN (m + n) s).overflow
      = ((selectN m s).overflow || (selectN n (selectN m s).state).overflow) := by
  induction m generalizing s with
  | zero => simp [selectN]
  | succ m ih =>
    rw [Nat.succ_add]
    simp only [selectN, ih, Bool.or_assoc]

theorem selectN_state_add (m n : Nat) (s : State T) :
    (selectN (m + n) s).state = (selectN n (selectN m s).state).state := by
  induction m generalizing s with
  | zero => simp [selectN]
  | succ m ih =>
    rw [Nat.succ_add]
    simp only [selectN, ih]

theorem timesReturned_map_some (outs : List T) (t : T) :
    timesReturned (outs.map some) t = outs.count t := by
  unfold timesReturned
  induction outs with
  | nil => simp
  | cons o outs ih =>
    simp only [List.map_cons, List.count_cons, ih]
    by_cases h : o = t <;> simp [h]


/-! ### Runs in which nothing overflows -/

theorem fitsInt_iff (x : Int) :
    fitsInt x = true ↔ -9223372036854775808 ≤ x ∧ x ≤ 9223372036854775807 := by
  simp [fitsInt]

/-- The loop does not overflow when the total weight and every incremented
accumulator fit in `int` and the cells store the incremented accumulators
unchanged. -/
theorem selectScan_no_overflow (hI : isInterface T = false) (l : List T) (cw : T → Int)
    (hnd : l.Nodup) (hw : ∀ t ∈ l, 0 < GetWeight t)
    (hW : totalWeightOf l ≤ 9223372036854775807)
    (hfit : ∀ t ∈ l, fitsInt (cw t + GetWeight t) = true)
    (hst : ∀ t ∈ l, stored T (cw t + GetWeight t) = cw t + GetWeight t) :
    (selectScan l cw).overflow = false := by
  induction l using List.reverseRecOn with
  | nil => rfl
  | append_singleton l a ih =>
    have hnd2 : l.Nodup := (List.nodup_append.mp hnd).1
    have hal : a ∉ l := by
      intro h
      exact (List.nodup_append.mp hnd).2.2 h (by simp)
    have hw2 : ∀ t ∈ l, 0 < GetWeight t := fun t ht => hw t (by simp [ht])
    have hwa : 0 < GetWeight a := hw a (by simp)
    have hsplit : totalWeightOf (l ++ [a]) = totalWeightOf l + GetWeight a := by
      simp [totalWeightOf]
    have hl0 := totalWeightOf_nonneg l hw2
    have h0 := ih hnd2 hw2 (by rw [hsplit] at hW; omega) (fun t ht => hfit t (by simp [ht]))
      (fun t ht => hst t (by simp [ht]))
    obtain ⟨hp, hz⟩ := selectScan_refines hI l cw
    obtain ⟨e1, _, e3⟩ := hz h0
    have hca : (selectScan l cw).cw a = cw a := by
      rw [e3, selectScanZ_cw l cw hnd2 a, if_neg hal]
    have hfa := hfit a (by simp)
    rw [selectScan_append, selectStep_of_not_interface hI _ a hp]
    simp only [Bool.or_eq_false_iff, Bool.not_eq_false', decide_eq_false_iff_not, not_not]
    refine ⟨⟨⟨h0, ?_⟩, ?_⟩, ?_⟩
    · rw [e1, selectScanZ_totalWeight, fitsInt_iff]
      rw [hsplit] at hW
      omega
    · rw [hca]
      exact hfa
    · rw [hca, wrapInt_of_fits _ hfa]
      exact hst a (by simp)

/-- One `Select` does not overflow when the total weight, every incremented
accumulator and the adjusted accumulator of the member the reference returns
fit in `int` and are stored unchanged. -/
theorem Select_no_overflow (hI : isInterface T = false) (s : State T) (hne : s.servers ≠ [])
    (hnd : s.servers.Nodup) (hw : ∀ t ∈ s.servers, 0 < GetWeight t)
    (hW : totalWeightOf s.servers ≤ 9223372036854775807)
    (hfit : ∀ t ∈ s.servers, fitsInt (s.curWeight t + GetWeight t) = true)
    (hst : ∀ t ∈ s.servers,
      stored T (s.curWeight t + GetWeight t) = s.curWeight t + GetWeight t)
    (hadj : fitsInt (s.curWeight (SelectZ s).1 + GetWeight (SelectZ s).1
      - totalWeightOf s.servers) = true)
    (hadjs : stored T (s.curWeight (SelectZ s).1 + GetWeight (SelectZ s).1
        - totalWeightOf s.servers)
      = s.curWeight (SelectZ s).1 + GetWeight (SelectZ s).1 - totalWeightOf s.servers) :
    (Select s).overflow = false := by
  have hlen : s.servers.length ≠ 0 := by simpa using hne
  have h0 := selectScan_no_overflow hI s.servers s.curWeight hnd hw hW hfit hst
  obtain ⟨hp, hz⟩ := selectScan_refines hI s.servers s.curWeight
  obtain ⟨e1, e2, e3⟩ := hz h0
  have hm := SelectZ_mem s hne
  rw [SelectZ_fst s hne] at hadj hadjs hm
  have hval : (selectScan s.servers s.curWeight).cw (selectScan s.servers s.curWeight).selected
      - (selectScan s.servers s.curWeight).totalWeight
      = s.curWeight (selectScanZ s.servers s.curWeight).selected
        + GetWeight (selectScanZ s.servers s.curWeight).selected - totalWeightOf s.servers := by
    rw [e1, e2, e3, selectScanZ_totalWeight, selectScanZ_cw _ _ hnd, if_pos hm]
  simp only [Select, hlen, if_false, hp, Bool.false_eq_true, GetCurrentWeight,
    Bool.or_eq_false_iff, Bool.not_eq_false', decide_eq_false_iff_not, not_not]
  refine ⟨⟨h0, ?_⟩, ?_⟩
  · rw [hval]
    exact hadj
  · rw [hval, wrapInt_of_fits _ hadj]
    exact hadjs

theorem le_sum_of_nonneg (l : List T) (f : T → Int) (h : ∀ u ∈ l, 0 ≤ f u) (t : T)
    (ht : t ∈ l) : f t ≤ (l.map f).sum := by
  induction l with
  | nil => simp at ht
  | cons a l ih =>
    have ha := h a (by simp)
    have hs : 0 ≤ (l.map f).sum := by
      have := sum_map_le_int l (fun _ => (0 : Int)) f (fun u hu => h u (by simp [hu]))
      simpa using this
    simp only [List.map_cons, List.sum_cons]
    rcases List.mem_cons.mp ht with h1 | h1
    · subst h1; omega
    · have := ih (fun u hu => h u (by simp [hu])) h1
      omega

theorem sum_map_const_int (l : List T) (c : Int) :
    (l.map (fun _ => c)).sum = (l.length : Int) * c := by
  induction l with
  | nil => simp
  | cons a l ih =>
    simp only [List.map_cons, List.sum_cons, ih, List.length_cons]
    push_cast
    ring

/-- Under the ledger invariant an accumulator is at most the total weight times
the number of members less one. -/
theorem LedgerInv_upper (s : State T) (hinv : LedgerInv s) (t : T) (ht : t ∈ s.servers) :
    s.curWeight t ≤ ((s.servers.length : Int) - 1) * totalWeightOf s.servers := by
  obtain ⟨hsum, hlow⟩ := hinv
  have h1 := le_sum_of_nonneg s.servers (fun u => s.curWeight u + totalWeightOf s.servers)
    (fun u hu => by have := hlow u hu; show 0 ≤ s.curWeight u + totalWeightOf s.servers; omega)
    t ht
  rw [sum_map_add_int, sum_map_const_int] at h1
  unfold curWeightSum at hsum
  simp only [hsum] at h1
  have : ((s.servers.length : Int) - 1) * totalWeightOf s.servers
      = (s.servers.length : Int) * totalWeightOf s.servers - totalWeightOf s.servers := by ring
  rw [this]
  omega

/-- One `Select` from a ledger satisfying the invariant does not overflow when
the number of members times the total weight is at most a bound `B` up to which
integers fit in `int` and are stored unchanged by the cells. -/
theorem Select_no_overflow_of_inv (hI : isInterface T = false) (B : Int)
    (hS : ∀ v : Int, -B ≤ v → v ≤ B → fitsInt v = true ∧ stored T v = v)
    (s : State T)
    (hne : s.servers ≠ []) (hnd : s.servers.Nodup) (hnz : (zero : T) ∉ s.servers)
    (hw : ∀ t ∈ s.servers, 0 < GetWeight t) (hinv : LedgerInv s)
    (hB : (s.servers.length : Int) * totalWeightOf s.servers ≤ B) :
    (Select s).overflow = false := by
  have hWpos := totalWeightOf_pos s.servers hne hw
  have hk : (1 : Int) ≤ (s.servers.length : Int) := by
    have : 0 < s.servers.length := List.length_pos.mpr hne
    omega
  have hWle : totalWeightOf s.servers ≤ (s.servers.length : Int) * totalWeightOf s.servers := by
    nlinarith
  have hup : ∀ t ∈ s.servers, s.curWeight t + GetWeight t
      ≤ (s.servers.length : Int) * totalWeightOf s.servers := by
    intro t ht
    have h1 := LedgerInv_upper s hinv t ht
    have h2 : GetWeight t ≤ totalWeightOf s.servers :=
      le_sum_of_nonneg s.servers GetWeight (fun u hu => (hw u hu).le) t ht
    have : ((s.servers.length : Int) - 1) * totalWeightOf s.servers
        = (s.servers.length : Int) * totalWeightOf s.servers - totalWeightOf s.servers := by ring
    rw [this] at h1
    omega
  have hWB : totalWeightOf s.servers ≤ 9223372036854775807 := by
    have h1 := (hS (totalWeightOf s.servers) (by omega) (by omega)).1
    rw [fitsInt_iff] at h1
    exact h1.2
  have hmem : ∀ t ∈ s.servers, -B ≤ s.curWeight t + GetWeight t
      ∧ s.curWeight t + GetWeight t ≤ B := by
    intro t ht
    have h1 := hup t ht
    have h2 := hinv.2 t ht
    have h3 := hw t ht
    constructor <;> omega
  have hm := SelectZ_mem s hne
  have hsel : -B ≤ s.curWeight (SelectZ s).1 + GetWeight (SelectZ s).1
        - totalWeightOf s.servers
      ∧ s.curWeight (SelectZ s).1 + GetWeight (SelectZ s).1 - totalWeightOf s.servers ≤ B := by
    have h1 := hup _ hm
    have h2 := (SelectZ_ledgerInv s hne hnd hnz hw hinv).2 (SelectZ s).1
      (by rw [SelectZ_servers]; exact hm)
    rw [SelectZ_servers, SelectZ_curWeight s hne hnd _, if_pos hm, if_pos rfl] at h2
    constructor <;> omega
  exact Select_no_overflow hI s hne hnd hw hWB
    (fun t ht => (hS _ (hmem t ht).1 (hmem t ht).2).1)
    (fun t ht => (hS _ (hmem t ht).1 (hmem t ht).2).2)
    (hS _ hsel.1 hsel.2).1 (hS _ hsel.1 hsel.2).2

/-- A run from a ledger satisfying the invariant does not overflow when the
number of members times the total weight is at most a bound `B` up to which
integers fit in `int` and are stored unchanged by the cells (`2^63 - 1` for a
cell of type `int`, `2^31 - 1` for the `atomic.Int32` of the test). -/
theorem selectN_no_overflow_of_inv (hI : isInterface T = false) (B : Int)
    (hS : ∀ v : Int, -B ≤ v → v ≤ B → fitsInt v = true ∧ stored T v = v)
    (n : Nat) (s : State T)
    (hne : s.servers ≠ []) (hnd : s.servers.Nodup) (hnz : (zero : T) ∉ s.servers)
    (hw : ∀ t ∈ s.servers, 0 < GetWeight t) (hinv : LedgerInv s)
    (hB : (s.servers.length : Int) * totalWeightOf s.servers ≤ B) :
    (selectN n s).overflow = false := by
  induction n generalizing s with
  | zero => rfl
  | succ n ih =>
    have h1 := Select_no_overflow_of_inv hI B hS s hne hnd hnz hw hinv hB
    have hs := (Select_refines hI s h1).2
    have hsrv : (Select s).state.servers = s.servers := Select_servers s
    simp only [selectN, h1, Bool.false_or]
    apply ih (Select s).state
    · rw [hsrv]; exact hne
    · rw [hsrv]; exact hnd
    · rw [hsrv]; exact hnz
    · rw [hsrv]; exact hw
    · rw [hs]; exact SelectZ_ledgerInv s hne hnd hnz hw hinv
    · rw [hsrv]; exact hB

theorem LedgerInv_of_zero (s : State T) (hne : s.servers ≠ [])
    (hw : ∀ t ∈ s.servers, 0 < GetWeight t) (hcw : ∀ t ∈ s.servers, s.curWeight t = 0) :
    LedgerInv s := by
  have hW := totalWeightOf_pos s.servers hne hw
  refine ⟨?_, ?_⟩
  · unfold curWeightSum
    have : s.servers.map s.curWeight = s.servers.map (fun _ => (0 : Int)) :=
      List.map_congr_left hcw
    rw [this]; simp
  · intro t ht; rw [hcw t ht]; omega

/-- Integers up to `2^31 - 1` in absolute value fit in `int` and survive the
conversion to `int32` and back. -/
theorem mock_cell_faithful (v : Int) (h1 : -2147483647 ≤ v) (h2 : v ≤ 2147483647) :
    fitsInt v = true ∧ stored MockPtr v = v := by
  refine ⟨by rw [fitsInt_iff]; omega, ?_⟩
  show wrapInt32 v = v
  unfold wrapInt32
  omega


/-! ### What `Select` returns -/

theorem selectScan_selected_mem (hI : isInterface T = false) (l : List T) (cw : T → Int)
    (hne : l ≠ []) : (selectScan l cw).selected ∈ l := by
  induction l using List.reverseRecOn with
  | nil => exact absurd rfl hne
  | append_singleton l a ih =>
    have hp := (selectScan_refines hI l cw).1
    rw [selectScan_append, selectStep_of_not_interface hI _ a hp]
    simp only
    split
    · simp
    · rename_i hc
      by_cases hl : l = []
      · subst hl
        simp [selectScan, isZeroZ] at hc
      · simp [ih hl]

/-- With `T` not an interface type, `Select` on a non-empty pool returns a
member of the pool, whatever the arithmetic does. -/
theorem Select_value_mem (hI : isInterface T = false) (s : State T) (hne : s.servers ≠ []) :
    ∃ m ∈ s.servers, (Select s).value = some m := by
  have hlen : s.servers.length ≠ 0 := by simpa using hne
  have hp := (selectScan_refines hI s.servers s.curWeight).1
  refine ⟨(selectScan s.servers s.curWeight).selected,
    selectScan_selected_mem hI _ _ hne, ?_⟩
  simp [Select, hlen, hp]

theorem foldl_selectStep_panicked (l : List T) (st : Scan T) (h : st.panicked = true) :
    l.foldl selectStep st = st := by
  induction l with
  | nil => rfl
  | cons a l ih =>
    have : selectStep st a = st := by simp [selectStep, h]
    rw [List.foldl_cons, this, ih]

/-- With `T` an interface type, `Select` on a non-empty pool panics: the first
iteration calls `isZero` on the nil value of `selected`. -/
theorem Select_interface_panics (hI : isInterface T = true) (s : State T)
    (hne : s.servers ≠ []) : (Select s).value = none := by
  have hlen : s.servers.length ≠ 0 := by simpa using hne
  have hp : (selectScan s.servers s.curWeight).panicked = true := by
    cases hs : s.servers with
    | nil => exact absurd hs hne
    | cons a l =>
      have h1 : (selectStep (⟨0, zero, s.curWeight, false, false⟩ : Scan T) a).panicked
          = true := by
        simp [selectStep, isZero, hI]
      show (l.foldl selectStep (selectStep (⟨0, zero, s.curWeight, false, false⟩ : Scan T) a)).panicked
        = true
      rw [foldl_selectStep_panicked l _ h1]
      exact h1
  simp [Select, hlen, hp]

/-! ### The distribution over whole cycles -/

/-- Whole cycles of the code from a zeroed ledger, without overflow. -/
theorem selectN_count_cycles (hI : isInterface T = false) (s : State T) (hne : s.servers ≠ [])
    (hnd : s.servers.Nodup) (hnz : (zero : T) ∉ s.servers)
    (hw : ∀ t ∈ s.servers, 0 < GetWeight t) (hcw : ∀ t ∈ s.servers, s.curWeight t = 0)
    (k : Nat) (hov : (selectN (k * (totalWeightOf s.servers).toNat) s).overflow = false)
    (t : T) (ht : t ∈ s.servers) :
    ((timesReturned (selectN (k * (totalWeightOf s.servers).toNat) s).values t : Nat) : Int)
      = k * GetWeight t := by
  rw [(selectN_refines hI _ s hov).1, timesReturned_map_some]
  exact selectNZ_count_cycles s hne hnd hnz hw hcw k t ht

/-- C1 (exact-distribution law, as the code behaves).  Let `T` not be an
interface type.  Take distinct candidates `servers`, none of them the zero
value, with positive weights summing to `W`, whose accumulators are all zero,
registered in any order `order`, and consider exactly `W` consecutive `Select`
calls on the scheduler built by `NewSmoothWeightedRoundRobin`.  If in these
calls no addition or subtraction overflows the 64-bit `int` and every
accumulator is stored unchanged by its cell, every candidate is returned
exactly as often as its weight says. -/
theorem select_exact_distribution (hI : isInterface T = false) (servers : List T)
    (hne : servers ≠ []) (hnd : servers.Nodup) (hnz : (zero : T) ∉ servers)
    (hw : ∀ t ∈ servers, 0 < GetWeight t)
    (order : List T) (hperm : order.Perm servers)
    (cw : T → Int) (hcw : ∀ t ∈ servers, cw t = 0)
    (hov : (selectN (totalWeightOf servers).toNat
      (NewSmoothWeightedRoundRobin order cw)).overflow = false)
    (t : T) (ht : t ∈ servers) :
    ((timesReturned (selectN (totalWeightOf servers).toNat
        (NewSmoothWeightedRoundRobin order cw)).values t : Nat) : Int) = GetWeight t := by
  have hw2 : ∀ u ∈ order, 0 < GetWeight u := fun u hu => hw u (hperm.mem_iff.mp hu)
  have hsrv := new_servers_of_pos order cw hw2
  have hW : totalWeightOf servers = totalWeightOf order := by
    unfold totalWeightOf
    exact ((hperm.map GetWeight).sum_eq).symm
  have hov2 : (selectN (1 * (totalWeightOf (NewSmoothWeightedRoundRobin order cw).servers).toNat)
      (NewSmoothWeightedRoundRobin order cw)).overflow = false := by
    rw [hsrv, ← hW, Nat.one_mul]
    exact hov
  have h := selectN_count_cycles hI (NewSmoothWeightedRoundRobin order cw)
    (by rw [hsrv]; intro h0; exact hne (List.Perm.eq_nil (h0 ▸ hperm.symm)))
    (by rw [hsrv]; exact hperm.nodup_iff.mpr hnd)
    (by rw [hsrv]; exact fun h0 => hnz (hperm.mem_iff.mp h0))
    (by rw [hsrv]; exact hw2)
    (by rw [hsrv]; exact fun u hu => hcw u (hperm.mem_iff.mp hu))
    1 hov2 t (by rw [hsrv]; exact hperm.mem_iff.mpr ht)
  rw [hsrv, ← hW] at h
  simpa using h

/-- Witness for C1: candidates `A`, `B`, `C` registered in the order `C`, `A`,
`B`. -/
theorem select_exact_distribution_witness :
    ((timesReturned (selectN (totalWeightOf [srvA, srvB, srvC]).toNat
        (NewSmoothWeightedRoundRobin [srvC, srvA, srvB] (fun _ => 0))).values srvB : Nat) : Int)
      = GetWeight srvB :=
  select_exact_distribution rfl [srvA, srvB, srvC] (by decide) (by decide) (by decide)
    (by decide) [srvC, srvA, srvB] (by decide) (fun _ => 0) (by decide) (by decide)
    srvB (by decide)

/-- C1, counterexample.  The pool `[0, 1]` of indices (not an interface type,
distinct, weights 5 and 1, `W = 6`, accumulators zero, no overflow): the six
calls never return the index 0, the zero value, whose weight is 5, and return
the index 1 six times.  And on the pool `[M, N]` of two weights `2^63 - 1` the
first two calls return `M`, `M`, where exact arithmetic gives `M`, `N`. -/
theorem select_exact_distribution_counterexample :
    isInterface ServerID = false ∧ [id0, id1].Nodup ∧
    (∀ t ∈ [id0, id1], 0 < GetWeight t) ∧ (totalWeightOf [id0, id1]).toNat = 6 ∧
    (selectN 6 (NewSmoothWeightedRoundRobin [id0, id1] (fun _ => 0))).overflow = false ∧
    GetWeight id0 = 5 ∧
    timesReturned (selectN 6 (NewSmoothWeightedRoundRobin [id0, id1] (fun _ => 0))).values id0
      = 0 ∧
    timesReturned (selectN 6 (NewSmoothWeightedRoundRobin [id0, id1] (fun _ => 0))).values id1
      = 6 ∧
    (selectN 2 (NewSmoothWeightedRoundRobin [srvM, srvN] (fun _ => 0))).values
      = [some srvM, some srvM] ∧
    (selectNZ 2 (NewSmoothWeightedRoundRobin [srvM, srvN] (fun _ => 0))).1 = [srvM, srvN] := by
  decide

/-- C3 (multi-cycle distribution, as the code behaves).  Let `T` not be an
interface type.  For a pool of distinct candidates, none of them the zero value,
with positive weights summing to `W`, all accumulators zero, and every `k` (in
particular every `k ≥ 1`), consider exactly `k * W` consecutive `Select` calls.
If in these calls no addition or subtraction overflows the 64-bit `int` and
every accumulator is stored unchanged by its cell, each candidate is returned
exactly `k` times its weight. -/
theorem select_multi_cycle_distribution (hI : isInterface T = false) (servers : List T)
    (hne : servers ≠ []) (hnd : servers.Nodup) (hnz : (zero : T) ∉ servers)
    (hw : ∀ t ∈ servers, 0 < GetWeight t)
    (cw : T → Int) (hcw : ∀ t ∈ servers, cw t = 0) (k : Nat)
    (hov : (selectN (k * (totalWeightOf servers).toNat)
      (NewSmoothWeightedRoundRobin servers cw)).overflow = false)
    (t : T) (ht : t ∈ servers) :
    ((timesReturned (selectN (k * (totalWeightOf servers).toNat)
        (NewSmoothWeightedRoundRobin servers cw)).values t : Nat) : Int) = k * GetWeight t := by
  have hsrv := new_servers_of_pos servers cw hw
  have hov2 : (selectN (k * (totalWeightOf (NewSmoothWeightedRoundRobin servers cw).servers).toNat)
      (NewSmoothWeightedRoundRobin servers cw)).overflow = false := by
    rw [hsrv]
    exact hov
  have h := selectN_count_cycles hI (NewSmoothWeightedRoundRobin servers cw)
    (by rw [hsrv]; exact hne) (by rw [hsrv]; exact hnd) (by rw [hsrv]; exact hnz)
    (by rw [hsrv]; exact hw) (by rw [hsrv]; exact hcw) k hov2 t (by rw [hsrv]; exact ht)
  rw [hsrv] at h
  exact h

/-- Witness for C3: the 6000 calls of `TestSmoothWeightedRoundRobin` on the
test's own candidate type, a thousand cycles over the weights 1, 2, 3; with
three members of total weight 6 nothing leaves the range of the `atomic.Int32`
cell. -/
theorem select_multi_cycle_distribution_witness :
    ((timesReturned (selectN (1000 * (totalWeightOf [mock1, mock2, mock3]).toNat)
        (NewSmoothWeightedRoundRobin [mock1, mock2, mock3] (fun _ => 0))).values mock3 : Nat)
          : Int)
      = (1000 : Nat) * GetWeight mock3 :=
  select_multi_cycle_distribution rfl [mock1, mock2, mock3] (List.cons_ne_nil _ _) (by decide)
    (by decide) (by decide) (fun _ => 0) (fun _ _ => rfl) 1000
    (selectN_no_overflow_of_inv rfl 2147483647 mock_cell_faithful _ _ (by decide) (by decide)
      (by decide) (by decide) (LedgerInv_of_zero _ (by decide) (by decide) (by decide))
      (by decide))
    mock3 (by decide)

/-- C3, counterexample.  The pool `[0, 1]` of indices (not an interface type,
distinct, weights 5 and 1, `W = 6`, accumulators zero, no overflow) with
`k = 2`: the twelve calls never return the index 0, the zero value, where the
claim has it returned ten times.  On the pool `[P, Q]` of two weights `2^62` the
first two calls return `P`, `P`, where exact arithmetic gives `P`, `Q`.  And on
the test's candidate type, with weights `2^31` and 1, the first call returns the
member of weight 1 and leaves both `atomic.Int32` cells at `-2^31`, where exact
arithmetic returns the member of weight `2^31`. -/
theorem select_multi_cycle_distribution_counterexample :
    isInterface ServerID = false ∧ [id0, id1].Nodup ∧
    (∀ t ∈ [id0, id1], 0 < GetWeight t) ∧ 2 * (totalWeightOf [id0, id1]).toNat = 12 ∧
    (selectN 12 (NewSmoothWeightedRoundRobin [id0, id1] (fun _ => 0))).overflow = false ∧
    2 * GetWeight id0 = 10 ∧
    timesReturned (selectN 12 (NewSmoothWeightedRoundRobin [id0, id1] (fun _ => 0))).values id0
      = 0 ∧
    (selectN 2 (NewSmoothWeightedRoundRobin [srvP, srvQ] (fun _ => 0))).values
      = [some srvP, some srvP] ∧
    (selectNZ 2 (NewSmoothWeightedRoundRobin [srvP, srvQ] (fun _ => 0))).1 = [srvP, srvQ] ∧
    (Select (NewSmoothWeightedRoundRobin [mockBig, mock1] (fun _ => 0))).value = some mock1 ∧
    (Select (NewSmoothWeightedRoundRobin [mockBig, mock1] (fun _ => 0))).state.curWeight mockBig
      = -2147483648 ∧
    (Select (NewSmoothWeightedRoundRobin [mockBig, mock1] (fun _ => 0))).state.curWeight mock1
      = -2147483648 ∧
    (SelectZ (NewSmoothWeightedRoundRobin [mockBig, mock1] (fun _ => 0))).1 = mockBig := by
  decide

/-- C4 (weight-ledger conservation, as the code behaves).  Let `T` not be an
interface type.  For a pool of distinct candidates whose weights sum to `W`,
with arbitrary accumulators, consider exactly `W` consecutive `Select` calls.
If in these calls no addition or subtraction overflows the 64-bit `int` and
every accumulator is stored unchanged by its cell, the sum of the members'
accumulators after them equals the sum before them, and the pool is the same.
(Positivity of the weights is not needed.) -/
theorem select_ledger_conservation (hI : isInterface T = false) (s : State T)
    (hnd : s.servers.Nodup)
    (hov : (selectN (totalWeightOf s.servers).toNat s).overflow = false) :
    (selectN (totalWeightOf s.servers).toNat s).state.servers = s.servers ∧
    curWeightSum s.servers (selectN (totalWeightOf s.servers).toNat s).state.curWeight
      = curWeightSum s.servers s.curWeight := by
  refine ⟨selectN_servers _ s, ?_⟩
  rw [(selectN_refines hI _ s hov).2]
  exact selectNZ_curWeightSum _ s hnd

/-- Witness for C4: the pool `[A, B, C]` with the accumulators 7, -2, -2. -/
theorem select_ledger_conservation_witness :
    (selectN (totalWeightOf poolABC7.servers).toNat poolABC7).state.servers
      = poolABC7.servers ∧
    curWeightSum poolABC7.servers
      (selectN (totalWeightOf poolABC7.servers).toNat poolABC7).state.curWeight
      = curWeightSum poolABC7.servers poolABC7.curWeight :=
  select_ledger_conservation rfl poolABC7 (by decide) (by decide)

/-- C4, counterexample.  The pool `[A, D]` of pointers (distinct, weights 1 and
1, `W = 2`) with the accumulators 0 and `2^63 - 1`: the first call wraps the
accumulator of `D` to `-2^63`; after the two calls the accumulators are `-2` and
`-2^63 + 1`, and their sum is not the sum `2^63 - 1` before the calls. -/
theorem select_ledger_conservation_counterexample :
    poolADmax.servers.Nodup ∧ (∀ t ∈ poolADmax.servers, 0 < GetWeight t) ∧
    (totalWeightOf poolADmax.servers).toNat = 2 ∧
    curWeightSum poolADmax.servers poolADmax.curWeight = 9223372036854775807 ∧
    (selectN 2 poolADmax).state.curWeight srvA = -2 ∧
    (selectN 2 poolADmax).state.curWeight srvD = -9223372036854775807 ∧
    curWeightSum poolADmax.servers
      (selectN (totalWeightOf poolADmax.servers).toNat poolADmax).state.curWeight
      ≠ curWeightSum poolADmax.servers poolADmax.curWeight := by
  decide

/-! ### The reference sequence -/

/-- C2 (deterministic smoothness, as the code behaves).  For the pool built
from `A`, `B`, `C` registered in that order with weights 1, 2, 3 and every
accumulator zero, six consecutive `Select` calls return `C, B, A, C, B, C`: in
the third call `A` and `C` tie at 3 and the earlier member `A` is kept. -/
theorem select_sequence_abc :
    (selectN 6 (NewSmoothWeightedRoundRobin [srvA, srvB, srvC] (fun _ => 0))).values
      = [some srvC, some srvB, some srvA, some srvC, some srvB, some srvC] := by
  decide

/-- C2, counterexample: the six calls do not return `C, B, C, A, B, C`. -/
theorem select_sequence_abc_counterexample :
    (selectN 6 (NewSmoothWeightedRoundRobin [srvA, srvB, srvC] (fun _ => 0))).values
      ≠ [some srvC, some srvB, some srvC, some srvA, some srvB, some srvC] := by
  decide

/-! ### The empty pool -/

/-- C5 (the no-candidate result, as the code behaves).  On an empty pool
`Select` returns the zero value and leaves the state unchanged; a scheduler
constructed from no candidates or only from candidates of weight at most 0 does
so on every one of any number of consecutive calls.  When `T` is not an
interface type, `Select` on a non-empty pool returns a member of the pool;
hence, when moreover no member is the zero value, the zero value is returned if
and only if the pool is empty. -/
theorem select_no_candidate :
    (∀ s : State T, s.servers = [] →
      Select s = { value := some zero, state := s, overflow := false }) ∧
    (∀ (servers : List T) (cw : T → Int), (∀ t ∈ servers, GetWeight t ≤ 0) →
      (NewSmoothWeightedRoundRobin servers cw).servers = [] ∧
      ∀ n, selectN n (NewSmoothWeightedRoundRobin servers cw)
        = { values := List.replicate n (some zero),
            state := NewSmoothWeightedRoundRobin servers cw, overflow := false }) ∧
    (isInterface T = false →
      ∀ s : State T, s.servers ≠ [] → ∃ m ∈ s.servers, (Select s).value = some m) ∧
    (isInterface T = false →
      ∀ s : State T, (zero : T) ∉ s.servers →
        ((Select s).value = some zero ↔ s.servers = [])) := by
  refine ⟨Select_nil, ?_, Select_value_mem, ?_⟩
  · intro servers cw h
    have hnil : (NewSmoothWeightedRoundRobin servers cw).servers = [] := by
      rw [new_servers]
      apply List.filter_eq_nil_iff.mpr
      intro t ht
      have := h t ht
      simp only [decide_eq_true_eq]
      omega
    exact ⟨hnil, fun n => selectN_nil n _ hnil⟩
  · intro hI s hnz
    constructor
    · intro h
      by_contra hne
      obtain ⟨m, hm, hv⟩ := Select_value_mem hI s hne
      rw [hv] at h
      exact hnz ((Option.some.inj h) ▸ hm)
    · intro h
      rw [Select_nil s h]

/-- Witness for C5: a scheduler built from two candidates of weight 0 and -1
returns the nil pointer three times; the pool `[A, B, C]` returns a member. -/
theorem select_no_candidate_witness :
    (selectN 3 (NewSmoothWeightedRoundRobin [srvX, srvY] (fun _ => 0))).values
        = [some srvNil, some srvNil, some srvNil] ∧
      (∃ m ∈ poolABC.servers, (Select poolABC).value = some m) := by
  refine ⟨?_, ?_⟩
  · have h := (@select_no_candidate ServerPtr _ _).2.1 [srvX, srvY] (fun _ => 0) (by decide)
    rw [h.2 3]
    rfl
  · exact (@select_no_candidate ServerPtr _ _).2.2.1 rfl poolABC (by decide)

/-- C5, counterexample.  The constructor keeps the index 0, the zero value of
its type, because its weight is 5; on the non-empty pool `[0]` it builds,
`Select` returns the zero value, the result that stands for "no candidate".
And on the non-empty pool `[A, B]` of an interface type `Select` returns
nothing: it panics in `isZero`, having incremented the accumulator of `A`. -/
theorem select_no_candidate_counterexample :
    isInterface ServerID = false ∧
    (NewSmoothWeightedRoundRobin [id0] (fun _ => 0)).servers = [id0] ∧
    (NewSmoothWeightedRoundRobin [id0] (fun _ => 0)).servers ≠ [] ∧
    (Select (NewSmoothWeightedRoundRobin [id0] (fun _ => 0))).value
      = some (zero : ServerID) ∧
    poolIface.servers ≠ [] ∧ (Select poolIface).value = none ∧
    (Select poolIface).state.curWeight ifaceA = 1 := by
  decide

/-! ### Construction, `Add` -/

/-- C6 (construction).  The pool of `NewSmoothWeightedRoundRobin(servers)` is
the input filtered by `weight > 0`, in input order; the accumulators are not
touched. -/
theorem new_pool_is_filter (servers : List T) (cw : T → Int) :
    (NewSmoothWeightedRoundRobin servers cw).servers
        = servers.filter (fun s => decide (GetWeight s > 0)) ∧
      (NewSmoothWeightedRoundRobin servers cw).curWeight = cw :=
  ⟨new_servers servers cw, rfl⟩

theorem isZero_zero_ne_false (c : T) (h : c = zero) : isZero c ≠ some false := by
  subst h
  by_cases hI : isInterface T = true
  · simp [isZero, hI]
  · simp [isZero, hI]

theorem isZero_ne_false_iff (hI : isInterface T = false) (c : T) :
    isZero c ≠ some false ↔ c = zero := by
  simp [isZero, hI]

theorem Add_state_of_reject (s : State T) (c : T)
    (h : isZero c ≠ some false ∨ GetWeight c ≤ 0) : (Add s c).2 = s := by
  unfold Add
  cases hz : isZero c with
  | none => rfl
  | some z =>
    cases z with
    | true => simp
    | false =>
      rcases h with h | h
      · exact absurd hz h
      · simp [h]

theorem Add_of_accept (s : State T) (c : T) (hz : isZero c = some false)
    (hw : 0 < GetWeight c) :
    Add s c = (some (), { servers := s.servers ++ [c], curWeight := s.curWeight }) := by
  have : ¬ GetWeight c ≤ 0 := by omega
  simp [Add, hz, this]

theorem Add_panics_iff (s : State T) (c : T) : (Add s c).1 = none ↔ isZero c = none := by
  unfold Add
  cases hz : isZero c with
  | none => simp
  | some z =>
    simp only [reduceCtorEq, iff_false]
    split <;> simp

/-- C7 (`Add`).  If the candidate is the zero value, or `isZero` reports it as
zero, or its weight is at most 0, `Add` leaves the state (members, order,
accumulators) unchanged; the call panics instead of returning exactly when
`isZero` panics, which is when `T` is an interface type and the candidate its
nil value.  Otherwise the call returns and the pool afterwards is the previous
pool with the candidate appended as last element, the accumulators unchanged.
When `T` is not an interface type, `isZero` reports exactly the zero value. -/
theorem add_spec (s : State T) (c : T) :
    ((c = zero ∨ isZero c = some true ∨ GetWeight c ≤ 0) → (Add s c).2 = s) ∧
    (¬ (c = zero ∨ isZero c = some true ∨ GetWeight c ≤ 0) →
      Add s c = (some (), { servers := s.servers ++ [c], curWeight := s.curWeight })) ∧
    ((Add s c).1 = none ↔ (isInterface T = true ∧ c = zero)) ∧
    (isInterface T = false → (isZero c = some true ↔ c = zero)) := by
  refine ⟨?_, ?_, ?_, ?_⟩
  · intro h
    apply Add_state_of_reject
    rcases h with h | h | h
    · exact Or.inl (isZero_zero_ne_false c h)
    · exact Or.inl (by rw [h]; simp)
    · exact Or.inr h
  · intro h
    have h1 : c ≠ zero := fun h0 => h (Or.inl h0)
    have h2 : isZero c ≠ some true := fun h0 => h (Or.inr (Or.inl h0))
    have h3 : 0 < GetWeight c := by
      have : ¬ GetWeight c ≤ 0 := fun h0 => h (Or.inr (Or.inr h0))
      omega
    apply Add_of_accept s c _ h3
    by_cases hI : isInterface T = true
    · simp only [isZero, hI, if_true, if_neg h1] at h2 ⊢
      cases hd : dynamicIsZero c with
      | true => simp [hd] at h2
      | false => rfl
    · simp [isZero, hI, h1]
  · rw [Add_panics_iff]
    by_cases hI : isInterface T = true
    · by_cases hc : c = zero <;> simp [isZero, hI, hc]
    · simp [isZero, hI]
  · intro hI
    simp [isZero, hI]

/-- Witness for C7: adding the nil pointer or a candidate of weight 0 changes
nothing, adding `C` to the pool `[A, B]` gives `[A, B, C]`, and adding the nil
value of an interface type panics and changes nothing. -/
theorem add_spec_witness :
    (Add poolAB srvNil).2 = poolAB ∧ (Add poolAB srvX).2 = poolAB ∧
      (Add poolAB srvC).2.servers = [srvA, srvB, srvC] ∧
      (Add poolIface ifaceNil).1 = none ∧ (Add poolIface ifaceNil).2 = poolIface := by
  refine ⟨?_, ?_, ?_, ?_, ?_⟩
  · exact (add_spec poolAB srvNil).1 (Or.inl rfl)
  · exact (add_spec poolAB srvX).1 (Or.inr (Or.inr (by decide)))
  · rw [(add_spec poolAB srvC).2.1 (by decide)]
    rfl
  · exact (add_spec poolIface ifaceNil).2.2.1.mpr ⟨rfl, rfl⟩
  · exact (add_spec poolIface ifaceNil).1 (Or.inl rfl)

/-! ### `Remove` -/

theorem removeIndex_none (name : String) (l : List T) (i : Nat)
    (h : ∀ m ∈ l, GetName m ≠ name) : removeIndex name l i = none := by
  induction l generalizing i with
  | nil => rfl
  | cons a l ih =>
    have ha : GetName a ≠ name := h a (by simp)
    simp only [removeIndex, if_neg ha]
    exact ih (i + 1) (fun m hm => h m (by simp [hm]))

theorem removeIndex_append (name : String) (pre : List T) (m : T) (post : List T) (i : Nat)
    (hpre : ∀ x ∈ pre, GetName x ≠ name) (hm : GetName m = name) :
    removeIndex name (pre ++ m :: post) i = some (i + pre.length) := by
  induction pre generalizing i with
  | nil => simp [removeIndex, hm]
  | cons a pre ih =>
    have ha : GetName a ≠ name := hpre a (by simp)
    have h := ih (i + 1) (fun x hx => hpre x (by simp [hx]))
    show removeIndex name (a :: (pre ++ m :: post)) i = some (i + (a :: pre).length)
    simp only [removeIndex, if_neg ha, List.length_cons, h]
    congr 1
    omega

/-- Every list splits at the first member carrying the name, if there is one. -/
theorem split_at_first_name (name : String) (l : List T) (h : ∃ m ∈ l, GetName m = name) :
    ∃ pre m post, l = pre ++ m :: post ∧ GetName m = name ∧ ∀ x ∈ pre, GetName x ≠ name := by
  induction l with
  | nil => simp at h
  | cons a l ih =>
    by_cases ha : GetName a = name
    · exact ⟨[], a, l, rfl, ha, by simp⟩
    · obtain ⟨m, hm, hmn⟩ := h
      have hml : m ∈ l := by
        rcases List.mem_cons.mp hm with h1 | h1
        · exact absurd (h1 ▸ hmn) ha
        · exact h1
      obtain ⟨pre, m2, post, hl, hm2, hpre⟩ := ih ⟨m, hml, hmn⟩
      refine ⟨a :: pre, m2, post, by simp [hl], hm2, ?_⟩
      intro x hx
      rcases List.mem_cons.mp hx with h1 | h1
      · exact h1 ▸ ha
      · exact hpre x h1

theorem slicesDelete_append (pre : List T) (m : T) (post : List T) :
    slicesDelete (pre ++ m :: post) pre.length (pre.length + 1) = pre ++ post := by
  simp [slicesDelete, List.take_append_eq_append_take, List.drop_append_eq_append_drop]

theorem Remove_of_split (s : State T) (name : String) (pre : List T) (m : T) (post : List T)
    (hs : s.servers = pre ++ m :: post) (hm : GetName m = name)
    (hpre : ∀ x ∈ pre, GetName x ≠ name) :
    Remove s name = { servers := pre ++ post, curWeight := s.curWeight } := by
  have h := removeIndex_append name pre m post 0 hpre hm
  unfold Remove
  rw [hs, h]
  simp only [Nat.zero_add, slicesDelete_append]

theorem Remove_of_absent (s : State T) (name : String)
    (h : ∀ m ∈ s.servers, GetName m ≠ name) : Remove s name = s := by
  unfold Remove
  rw [removeIndex_none name s.servers 0 h]

/-- C8 (`Remove`).  If some member has the name, the pool splits as
`pre ++ m :: post` with `m` the first member of that name, and `Remove` leaves
`pre ++ post` (one member fewer; every other member, later members of the same
name included, in the original order) with unchanged accumulators; if no member
has the name, the state is unchanged. -/
theorem remove_spec (s : State T) (name : String) :
    ((∃ m ∈ s.servers, GetName m = name) →
      ∃ pre m post, s.servers = pre ++ m :: post ∧ GetName m = name ∧
        (∀ x ∈ pre, GetName x ≠ name) ∧
        Remove s name = { servers := pre ++ post, curWeight := s.curWeight } ∧
        (Remove s name).servers.length + 1 = s.servers.length) ∧
    ((∀ m ∈ s.servers, GetName m ≠ name) → Remove s name = s) := by
  refine ⟨?_, Remove_of_absent s name⟩
  intro h
  obtain ⟨pre, m, post, hs, hm, hpre⟩ := split_at_first_name name s.servers h
  have hr := Remove_of_split s name pre m post hs hm hpre
  refine ⟨pre, m, post, hs, hm, hpre, hr, ?_⟩
  rw [hr, hs]
  simp
  omega

/-- Witness for C8: removing `B` and removing `A` from `[A, B, A', C]` (the
second member named `A` stays), and removing an unknown name. -/
theorem remove_spec_witness :
    (Remove poolDup "B").servers = [srvA, srvA2, srvC] ∧
      (Remove poolDup "A").servers = [srvB, srvA2, srvC] ∧
      Remove poolDup "Z" = poolDup := by
  refine ⟨by decide, by decide, ?_⟩
  exact (remove_spec poolDup "Z").2 (by decide)

/-- C9 (repeated removal, as the code behaves).  If at most one member of the
pool has the name, a second `Remove(name)` leaves the state exactly as the
first call left it. -/
theorem remove_twice (s : State T) (name : String)
    (huniq : (s.servers.filter (fun m => decide (GetName m = name))).length ≤ 1) :
    Remove (Remove s name) name = Remove s name := by
  by_cases h : ∃ m ∈ s.servers, GetName m = name
  · obtain ⟨pre, m, post, hs, hm, hpre⟩ := split_at_first_name name s.servers h
    rw [Remove_of_split s name pre m post hs hm hpre]
    apply Remove_of_absent
    intro x hx
    simp only [List.mem_append] at hx
    rcases hx with hx | hx
    · exact hpre x hx
    · intro hxn
      rw [hs, List.filter_append, List.filter_cons] at huniq
      have h1 : x ∈ post.filter (fun m => decide (GetName m = name)) := by
        simp [List.mem_filter, hx, hxn]
      have h2 := List.length_pos_of_mem h1
      simp [hm] at huniq
      omega
  · apply Remove_of_absent
    intro x hx
    have h0 : ∀ m ∈ s.servers, GetName m ≠ name := fun m hm hmn => h ⟨m, hm, hmn⟩
    rw [Remove_of_absent s name h0] at hx
    exact h0 x hx

/-- Witness for C9: removing `B` twice from `[A, B, A', C]`. -/
theorem remove_twice_witness :
    Remove (Remove poolDup "B") "B" = Remove poolDup "B" :=
  remove_twice poolDup "B" (by decide)

/-- C9, counterexample: with two members named `A`, the second `Remove("A")`
deletes the other one, so removing twice differs from removing once. -/
theorem remove_twice_counterexample :
    (Remove (Remove poolDup "A") "A").servers = [srvB, srvC] ∧
      (Remove poolDup "A").servers = [srvB, srvA2, srvC] ∧
      Remove (Remove poolDup "A") "A" ≠ Remove poolDup "A" := by
  refine ⟨by decide, by decide, ?_⟩
  intro h
  have h2 : (Remove (Remove poolDup "A") "A").servers = (Remove poolDup "A").servers := by
    rw [h]
  revert h2
  decide


/-! ### The pool invariant -/

/-- C10 (pool invariant).  Every member has weight `> 0` after
`NewSmoothWeightedRoundRobin` on any input, and `Select`, `Add` with any
candidate and `Remove` with any name preserve this, whether the call returns or
panics. -/
theorem pool_invariant :
    (∀ (servers : List T) (cw : T → Int), PoolInv (NewSmoothWeightedRoundRobin servers cw)) ∧
    (∀ s : State T, PoolInv s → PoolInv (Select s).state) ∧
    (∀ (s : State T) (c : T), PoolInv s → PoolInv (Add s c).2) ∧
    (∀ (s : State T) (name : String), PoolInv s → PoolInv (Remove s name)) := by
  refine ⟨?_, ?_, ?_, ?_⟩
  · intro servers cw t ht
    rw [new_servers] at ht
    simpa using (List.mem_filter.mp ht).2
  · intro s h t ht
    rw [Select_servers] at ht
    exact h t ht
  · intro s c h t ht
    by_cases hc : isZero c ≠ some false ∨ GetWeight c ≤ 0
    · rw [Add_state_of_reject s c hc] at ht
      exact h t ht
    · have hz : isZero c = some false := by
        by_contra h0
        exact hc (Or.inl h0)
      have hw : 0 < GetWeight c := by
        have : ¬ GetWeight c ≤ 0 := fun h0 => hc (Or.inr h0)
        omega
      rw [Add_of_accept s c hz hw] at ht
      simp only [List.mem_append, List.mem_singleton] at ht
      rcases ht with ht | ht
      · exact h t ht
      · subst ht
        exact hw
  · intro s name h t ht
    by_cases hn : ∃ m ∈ s.servers, GetName m = name
    · obtain ⟨pre, m, post, hs, hm, hpre⟩ := split_at_first_name name s.servers hn
      rw [Remove_of_split s name pre m post hs hm hpre] at ht
      apply h t
      rw [hs]
      simp only [List.mem_append, List.mem_cons] at ht ⊢
      tauto
    · have h0 : ∀ m ∈ s.servers, GetName m ≠ name := fun m hm hmn => hn ⟨m, hm, hmn⟩
      rw [Remove_of_absent s name h0] at ht
      exact h t ht

/-! ### The selection rule -/

/-- C14 (selection rule, as the code behaves).  Let `T` not be an interface
type.  For every non-empty pool of distinct candidates, none of them the zero
value, consider one `Select` call in which no addition or subtraction overflows
the 64-bit `int` and every accumulator is stored unchanged by its cell.  It
returns a member whose incremented accumulator (old value plus weight) is at
least that of every member and strictly greater than that of every member
before it in the pool: the earliest member carrying the maximum. -/
theorem select_rule (hI : isInterface T = false) (s : State T) (hne : s.servers ≠ [])
    (hnd : s.servers.Nodup) (hnz : (zero : T) ∉ s.servers)
    (hov : (Select s).overflow = false) :
    ∃ sel, (Select s).value = some sel ∧ sel ∈ s.servers ∧
      (∀ t ∈ s.servers, s.curWeight t + GetWeight t ≤ s.curWeight sel + GetWeight sel) ∧
      (∀ t ∈ membersBefore s.servers sel,
        s.curWeight t + GetWeight t < s.curWeight sel + GetWeight sel) :=
  ⟨(SelectZ s).1, (Select_refines hI s hov).1, SelectZ_mem s hne, SelectZ_max s hne hnd hnz,
    SelectZ_first s hne hnd hnz⟩

/-- Witness for C14: the pool `[A, B, C]` with zeroed accumulators. -/
theorem select_rule_witness :
    ∃ sel, (Select poolABC).value = some sel ∧ sel ∈ poolABC.servers ∧
      (∀ t ∈ poolABC.servers,
        poolABC.curWeight t + GetWeight t ≤ poolABC.curWeight sel + GetWeight sel) ∧
      (∀ t ∈ membersBefore poolABC.servers sel,
        poolABC.curWeight t + GetWeight t < poolABC.curWeight sel + GetWeight sel) :=
  select_rule rfl poolABC (by decide) (by decide) (by decide) (by decide)

/-- C14, counterexample.  In the pool `[A, D, D, A]` of non-null pointers of
weight 1 each, `D` is incremented twice before `A` is, so `Select` returns `D`
although the earlier member `A` has the same incremented accumulator, both
counted as old value plus weight (1 and 1) and as stored after the scan (2 and
2).  And in the pool `[A, D]` with accumulators 0 and `2^63 - 1` the increment
of `D` wraps to `-2^63`, so `Select` returns `A` although old value plus weight
is larger for `D`. -/
theorem select_rule_counterexample :
    poolADDA.servers ≠ [] ∧ (zero : ServerPtr) ∉ poolADDA.servers ∧
    (Select poolADDA).overflow = false ∧
    (Select poolADDA).value = some srvD ∧
    srvA ∈ membersBefore poolADDA.servers srvD ∧
    (selectScan poolADDA.servers poolADDA.curWeight).cw srvA = 2 ∧
    (selectScan poolADDA.servers poolADDA.curWeight).cw srvD = 2 ∧
    ¬ (∀ t ∈ membersBefore poolADDA.servers srvD,
      poolADDA.curWeight t + GetWeight t < poolADDA.curWeight srvD + GetWeight srvD) ∧
    poolADmax.servers.Nodup ∧ (zero : ServerPtr) ∉ poolADmax.servers ∧
    (Select poolADmax).value = some srvA ∧
    ¬ (∀ t ∈ poolADmax.servers,
      poolADmax.curWeight t + GetWeight t ≤ poolADmax.curWeight srvA + GetWeight srvA) := by
  decide

/-! ### The effect of one `Select` on the accumulators -/

/-- C15 (update and frame of `Select`, as the code behaves).  Let `T` not be an
interface type.  For a non-empty pool of distinct candidates with total weight
`W`, consider one `Select` call in which no addition or subtraction overflows
the 64-bit `int` and every accumulator is stored unchanged by its cell.  It
leaves the pool (members and order) unchanged, returns a member, sets every
other member's accumulator to its old value plus its weight and the returned
member's to its old value plus its weight minus `W`, and leaves the accumulator
of every handle outside the pool alone.  Names and static weights are functions
of the handle and no operation writes them. -/
theorem select_update_frame (hI : isInterface T = false) (s : State T)
    (hne : s.servers ≠ []) (hnd : s.servers.Nodup) (hov : (Select s).overflow = false) :
    ∃ sel, (Select s).value = some sel ∧ sel ∈ s.servers ∧
      (Select s).state.servers = s.servers ∧
      (∀ t ∈ s.servers, t ≠ sel →
        (Select s).state.curWeight t = s.curWeight t + GetWeight t) ∧
      (Select s).state.curWeight sel
        = s.curWeight sel + GetWeight sel - totalWeightOf s.servers ∧
      (∀ t, t ∉ s.servers → (Select s).state.curWeight t = s.curWeight t) := by
  obtain ⟨hv, hs⟩ := Select_refines hI s hov
  have hm := SelectZ_mem s hne
  refine ⟨(SelectZ s).1, hv, hm, Select_servers s, ?_, ?_, ?_⟩
  · intro t ht hsel
    rw [hs, SelectZ_curWeight s hne hnd t, if_pos ht, if_neg hsel]
    omega
  · rw [hs, SelectZ_curWeight s hne hnd _, if_pos hm, if_pos rfl]
  · intro t ht
    have hsel : t ≠ (SelectZ s).1 := fun h => ht (h ▸ hm)
    rw [hs, SelectZ_curWeight s hne hnd t, if_neg ht, if_neg hsel]
    omega

/-- Witness for C15: the pool `[A, B]` with both accumulators at 5. -/
theorem select_update_frame_witness :
    ∃ sel, (Select poolAB).value = some sel ∧ sel ∈ poolAB.servers ∧
      (Select poolAB).state.servers = poolAB.servers ∧
      (∀ t ∈ poolAB.servers, t ≠ sel →
        (Select poolAB).state.curWeight t = poolAB.curWeight t + GetWeight t) ∧
      (Select poolAB).state.curWeight sel
        = poolAB.curWeight sel + GetWeight sel - totalWeightOf poolAB.servers ∧
      (∀ t, t ∉ poolAB.servers → (Select poolAB).state.curWeight t = poolAB.curWeight t) :=
  select_update_frame rfl poolAB (by decide) (by decide) (by decide)

/-- C15, counterexample.  In the pool `[A, D]` of distinct pointers (weights 1
and 1) with accumulators 0 and `2^63 - 1`, `Select` returns `A`, and the
accumulator of the other member `D` afterwards is `-2^63`, not its old value
plus its weight, `2^63`. -/
theorem select_update_frame_counterexample :
    poolADmax.servers ≠ [] ∧ poolADmax.servers.Nodup ∧
    (Select poolADmax).value = some srvA ∧
    poolADmax.curWeight srvD + GetWeight srvD = 9223372036854775808 ∧
    (Select poolADmax).state.curWeight srvD = -9223372036854775808 ∧
    (Select poolADmax).state.curWeight srvD ≠ poolADmax.curWeight srvD + GetWeight srvD := by
  decide

/-! ### The ledger of a run from zeroed accumulators -/

/-- C17 (ledger equation, as the code behaves).  Let `T` not be an interface
type.  For a pool of distinct candidates whose weights sum to `W`, with every
accumulator zero, consider any number `n` of consecutive `Select` calls in
which no addition or subtraction overflows the 64-bit `int` and every
accumulator is stored unchanged by its cell.  After them each member's
accumulator equals `n` times its weight minus `W` times the number of those
calls that returned it. -/
theorem select_ledger_equation (hI : isInterface T = false) (s : State T)
    (hnd : s.servers.Nodup) (hcw : ∀ t ∈ s.servers, s.curWeight t = 0) (n : Nat)
    (hov : (selectN n s).overflow = false) (t : T) (ht : t ∈ s.servers) :
    (selectN n s).state.curWeight t
      = n * GetWeight t
        - totalWeightOf s.servers * (timesReturned (selectN n s).values t : Nat) := by
  have hne : s.servers ≠ [] := List.ne_nil_of_mem ht
  obtain ⟨hv, hs⟩ := selectN_refines hI n s hov
  rw [hs, hv, timesReturned_map_some, selectNZ_ledger n s hne hnd t ht, hcw t ht]
  simp

/-- Witness for C17: four calls on the pool `[A, B, C]`. -/
theorem select_ledger_equation_witness :
    (selectN 4 poolABC).state.curWeight srvB
      = (4 : Nat) * GetWeight srvB
        - totalWeightOf poolABC.servers
          * (timesReturned (selectN 4 poolABC).values srvB : Nat) :=
  select_ledger_equation rfl poolABC (by decide) (by decide) 4 (by decide) srvB (by decide)

/-- C17, counterexample.  In the pool `[M, N]` of distinct pointers, both of
weight `2^63 - 1`, with accumulators zero, the total weight wraps to `-2`; two
calls return `M` twice and leave its accumulator at 2, where the equation gives
`2 * (2^63 - 1) - (2^64 - 2) * 2`. -/
theorem select_ledger_equation_counterexample :
    poolMN.servers.Nodup ∧ (∀ t ∈ poolMN.servers, poolMN.curWeight t = 0) ∧
    (∀ t ∈ poolMN.servers, 0 < GetWeight t) ∧
    (selectN 2 poolMN).values = [some srvM, some srvM] ∧
    (selectN 2 poolMN).state.curWeight srvM = 2 ∧
    (selectN 2 poolMN).state.curWeight srvM
      ≠ (2 : Nat) * GetWeight srvM
        - totalWeightOf poolMN.servers * (timesReturned (selectN 2 poolMN).values srvM : Nat) := by
  decide

/-- C18 (bounded accumulator, as the code behaves).  Let `T` not be an
interface type.  For a non-empty pool of distinct candidates, none of them the
zero value, with positive weights summing to `W`, with every accumulator zero,
consider any number of consecutive `Select` calls in which no addition or
subtraction overflows the 64-bit `int` and every accumulator is stored
unchanged by its cell.  After them every member's stored accumulator is
strictly greater than `-W`. -/
theorem select_accumulator_bound (hI : isInterface T = false) (s : State T)
    (hne : s.servers ≠ []) (hnd : s.servers.Nodup)
    (hnz : (zero : T) ∉ s.servers) (hw : ∀ t ∈ s.servers, 0 < GetWeight t)
    (hcw : ∀ t ∈ s.servers, s.curWeight t = 0) (n : Nat)
    (hov : (selectN n s).overflow = false) (t : T) (ht : t ∈ s.servers) :
    -totalWeightOf s.servers < (selectN n s).state.curWeight t := by
  have hinv := selectNZ_ledgerInv n s hne hnd hnz hw (LedgerInv_of_zero s hne hw hcw)
  have h := hinv.2 t (by rw [selectNZ_servers]; exact ht)
  rw [selectNZ_servers] at h
  rw [(selectN_refines hI n s hov).2]
  exact h

/-- Witness for C18: five calls on the pool `[A, B, C]`. -/
theorem select_accumulator_bound_witness :
    -totalWeightOf poolABC.servers < (selectN 5 poolABC).state.curWeight srvC :=
  select_accumulator_bound rfl poolABC (by decide) (by decide) (by decide) (by decide)
    (by decide) 5 (by decide) srvC (by decide)

/-- C18, counterexample.  In the pool `[0, 1]` of indices (distinct, weights 5
and 1, `W = 6`, accumulators zero, no overflow) the index 1 is returned by all
six calls and its accumulator ends at `-30`.  And in the pool `[P, Q]` of
distinct non-null pointers of weight `2^62` each (`W = 2^63`) two calls leave
both accumulators at `-2^63`, which is not greater than `-W`. -/
theorem select_accumulator_bound_counterexample :
    poolID.servers.Nodup ∧ (∀ t ∈ poolID.servers, 0 < GetWeight t) ∧
    (∀ t ∈ poolID.servers, poolID.curWeight t = 0) ∧
    totalWeightOf poolID.servers = 6 ∧ (selectN 6 poolID).overflow = false ∧
    (selectN 6 poolID).state.curWeight id1 = -30 ∧
    ¬ (-totalWeightOf poolID.servers < (selectN 6 poolID).state.curWeight id1) ∧
    poolPQ.servers.Nodup ∧ (zero : ServerPtr) ∉ poolPQ.servers ∧
    (∀ t ∈ poolPQ.servers, 0 < GetWeight t) ∧
    totalWeightOf poolPQ.servers = 9223372036854775808 ∧
    (selectN 2 poolPQ).state.curWeight srvP = -9223372036854775808 ∧
    ¬ (-totalWeightOf poolPQ.servers < (selectN 2 poolPQ).state.curWeight srvP) := by
  decide


/-! ### Cycles -/

theorem State_eq (a b : State T) (h1 : a.servers = b.servers) (h2 : a.curWeight = b.curWeight) :
    a = b := by
  cases a
  cases b
  simp_all

theorem selectNZ_state_add (m n : Nat) (s : State T) :
    (selectNZ (m + n) s).2 = (selectNZ n (selectNZ m s).2).2 := by
  induction m generalizing s with
  | zero => simp [selectNZ]
  | succ m ih =>
    rw [Nat.succ_add]
    simp only [selectNZ, ih]

theorem SelectZ_frame (s : State T) (hnd : s.servers.Nodup) (t : T) (ht : t ∉ s.servers) :
    (SelectZ s).2.curWeight t = s.curWeight t := by
  by_cases hne : s.servers = []
  · rw [SelectZ_nil s hne]
  · have hsel : t ≠ (SelectZ s).1 := fun h => ht (h ▸ SelectZ_mem s hne)
    rw [SelectZ_curWeight s hne hnd t, if_neg ht, if_neg hsel]
    omega

theorem selectNZ_frame (n : Nat) (s : State T) (hnd : s.servers.Nodup) (t : T)
    (ht : t ∉ s.servers) : (selectNZ n s).2.curWeight t = s.curWeight t := by
  induction n generalizing s with
  | zero => rfl
  | succ n ih =>
    simp only [selectNZ]
    rw [ih (SelectZ s).2 (by rw [SelectZ_servers]; exact hnd) (by rw [SelectZ_servers]; exact ht)]
    exact SelectZ_frame s hnd t ht

/-- After one whole cycle from a zeroed ledger the reference is back in the
state it started from. -/
theorem selectNZ_cycle_state (s : State T) (hne : s.servers ≠ []) (hnd : s.servers.Nodup)
    (hnz : (zero : T) ∉ s.servers) (hw : ∀ t ∈ s.servers, 0 < GetWeight t)
    (hcw : ∀ t ∈ s.servers, s.curWeight t = 0) :
    (selectNZ (totalWeightOf s.servers).toNat s).2 = s := by
  have hW := totalWeightOf_pos s.servers hne hw
  have hWn : (((totalWeightOf s.servers).toNat : Nat) : Int) = totalWeightOf s.servers :=
    Int.toNat_of_nonneg hW.le
  apply State_eq _ _ (selectNZ_servers _ s)
  funext t
  by_cases ht : t ∈ s.servers
  · have hc := selectNZ_count_cycles s hne hnd hnz hw hcw 1 t ht
    simp only [Nat.one_mul, Nat.cast_one, one_mul] at hc
    rw [selectNZ_ledger _ s hne hnd t ht, hc, hWn]
    ring
  · exact selectNZ_frame _ s hnd t ht

/-- A whole cycle of the reference from any state reached from a zeroed ledger
leads back to that state. -/
theorem selectNZ_cycle_after (s : State T) (hne : s.servers ≠ []) (hnd : s.servers.Nodup)
    (hnz : (zero : T) ∉ s.servers) (hw : ∀ t ∈ s.servers, 0 < GetWeight t)
    (hcw : ∀ t ∈ s.servers, s.curWeight t = 0) (m : Nat) :
    (selectNZ (totalWeightOf s.servers).toNat (selectNZ m s).2).2 = (selectNZ m s).2 := by
  rw [← selectNZ_state_add, Nat.add_comm, selectNZ_state_add,
    selectNZ_cycle_state s hne hnd hnz hw hcw]

/-- C11 (a cycle restores the ledger, as the code behaves).  Let `T` not be an
interface type.  Take a pool of distinct candidates, none of them the zero
value, with positive weights summing to `W`, whose ledger is all zero, and let
it serve any number `m` of `Select` calls (none, for the fresh pool itself) and
then exactly `W` further consecutive `Select` calls.  If in all these calls no
addition or subtraction overflows the 64-bit `int` and every accumulator is
stored unchanged by its cell, then after the `W` further calls the pool is the
same and every member's accumulator equals the value it had before them. -/
theorem select_cycle_restores (hI : isInterface T = false) (s : State T)
    (hnd : s.servers.Nodup) (hnz : (zero : T) ∉ s.servers)
    (hw : ∀ t ∈ s.servers, 0 < GetWeight t) (hcw : ∀ t ∈ s.servers, s.curWeight t = 0)
    (m : Nat) (hov : (selectN (m + (totalWeightOf s.servers).toNat) s).overflow = false)
    (t : T) (ht : t ∈ s.servers) :
    (selectN (totalWeightOf s.servers).toNat (selectN m s).state).state.servers = s.servers ∧
    (selectN (totalWeightOf s.servers).toNat (selectN m s).state).state.curWeight t
      = (selectN m s).state.curWeight t := by
  have hne : s.servers ≠ [] := List.ne_nil_of_mem ht
  rw [selectN_overflow_add, Bool.or_eq_false_iff] at hov
  have h1 := (selectN_refines hI m s hov.1).2
  have h2 := (selectN_refines hI _ _ hov.2).2
  refine ⟨by rw [selectN_servers, selectN_servers], ?_⟩
  rw [h2, h1, selectNZ_cycle_after s hne hnd hnz hw hcw m]

/-- Witness for C11: the pool `[A, B, C]` after one call from zeroed
accumulators, where the ledger is 1, 2, -3. -/
theorem select_cycle_restores_witness :
    (selectN (totalWeightOf poolABC.servers).toNat (selectN 1 poolABC).state).state.servers
      = poolABC.servers ∧
    (selectN (totalWeightOf poolABC.servers).toNat (selectN 1 poolABC).state).state.curWeight srvC
      = (selectN 1 poolABC).state.curWeight srvC :=
  select_cycle_restores rfl poolABC (by decide) (by decide) (by decide) (by decide) 1
    (by decide) srvC (by decide)

/-- C11, counterexample.  The pool `[A, D]` of distinct non-null pointers with
weights 1 and 1 (`W = 2`) and accumulators 2 and 0, a ledger no run from zero
reaches, returns `A` twice without overflow; after the two calls the accumulator
of `A` is 0, not 2.  And in the pool `[0, 1]` of indices with weights 5 and 1
(`W = 6`) and zeroed accumulators the accumulator of the index 1 is `-30` after
the six calls. -/
theorem select_cycle_restores_counterexample :
    poolAD.servers.Nodup ∧ (∀ t ∈ poolAD.servers, 0 < GetWeight t) ∧
    (zero : ServerPtr) ∉ poolAD.servers ∧
    (totalWeightOf poolAD.servers).toNat = 2 ∧
    (selectN 2 poolAD).overflow = false ∧
    poolAD.curWeight srvA = 2 ∧
    (selectN (totalWeightOf poolAD.servers).toNat poolAD).state.curWeight srvA = 0 ∧
    ¬ (∀ t ∈ poolAD.servers,
      (selectN (totalWeightOf poolAD.servers).toNat poolAD).state.curWeight t
        = poolAD.curWeight t) ∧
    poolID.servers.Nodup ∧ (∀ t ∈ poolID.servers, 0 < GetWeight t) ∧
    (totalWeightOf poolID.servers).toNat = 6 ∧ poolID.curWeight id1 = 0 ∧
    (selectN 6 poolID).overflow = false ∧
    (selectN (totalWeightOf poolID.servers).toNat poolID).state.curWeight id1 = -30 := by
  decide

end Balancer

/-! ## The instance registry -/

namespace Registry

variable {T : Type} [Value T]

theorem Remove_absent (m : Manager T) (key : String) (h : m.instances key = none) :
    Remove m key = (some (Error.nothingToRemove key), m) := by
  simp [Remove, h]

theorem Remove_present (m : Manager T) (key : String) (v : T) (h : m.instances key = some v) :
    Remove m key = (none,
      { instances := Function.update m.instances key none
        destroyed := m.destroyed ++ (if Value.destroyable v then [v] else []) }) := by
  by_cases hd : Value.destroyable v = true <;> simp [Remove, h, hd]

theorem Add_nonNil (m : Manager T) (key : String) (v : T) (hv : Value.isNil v = false) :
    Add m key v = (none,
      { instances := Function.update
          (if Exists m key then (Remove m key).2 else m).instances key (some v)
        destroyed := (if Exists m key then (Remove m key).2 else m).destroyed }) := by
  simp [Add, hv]

/-- The entries after a successful `Add`: the new value under the name, every
other name as before. -/
theorem Add_instances (m : Manager T) (key : String) (v : T) (hv : Value.isNil v = false) :
    (Add m key v).2.instances = Function.update m.instances key (some v) := by
  rw [Add_nonNil m key v hv]
  funext k
  by_cases hk : k = key
  · subst hk; simp
  · simp only [Function.update_noteq hk]
    cases hm : m.instances key with
    | none => simp [Exists, hm]
    | some v1 => simp [Exists, hm, Remove_present m key v1 hm, Function.update_noteq hk]

/-- The `Destroy()` calls of a successful `Add` over an existing entry. -/
theorem Add_destroyed (m : Manager T) (key : String) (v1 v2 : T)
    (h1 : m.instances key = some v1) (h2 : Value.isNil v2 = false) :
    (Add m key v2).2.destroyed
      = m.destroyed ++ (if Value.destroyable v1 then [v1] else []) := by
  rw [Add_nonNil m key v2 h2]
  simp [Exists, h1, Remove_present m key v1 h1]

/-- C12 (store/load round trip).  For every registry, name and non-nil value
`v`, `Add` returns no error, `Load` of the name afterwards returns `v` with no
error, and the entry under every other name, and what `Load` returns for it, are
as before. -/
theorem registry_add_load (m : Manager T) (key : String) (v : T)
    (hv : Value.isNil v = false) :
    (Add m key v).1 = none ∧
    Load (Add m key v).2 key = Except.ok v ∧
    (∀ other, other ≠ key →
      (Add m key v).2.instances other = m.instances other ∧
      Load (Add m key v).2 other = Load m other) := by
  have hi := Add_instances m key v hv
  refine ⟨by rw [Add_nonNil m key v hv], ?_, ?_⟩
  · simp [Load, hi]
  · intro other ho
    simp [Load, hi, Function.update_noteq ho]

/-- Witness for C12: storing `db1` under `"1"` in a registry that holds `"0"`
and `"2"`. -/
theorem registry_add_load_witness :
    (Add registry02 "1" db1).1 = none ∧
    Load (Add registry02 "1" db1).2 "1" = Except.ok db1 ∧
    (∀ other, other ≠ "1" →
      (Add registry02 "1" db1).2.instances other = registry02.instances other ∧
      Load (Add registry02 "1" db1).2 other = Load registry02 other) :=
  registry_add_load registry02 "1" db1 rfl

/-- C16 (overwrite, as the code behaves).  For a registry holding `v1` under a
name and every non-nil `v2`, `Add` returns no error, leaves `v2` as the entry of
that name (`Load` returns it), leaves every other name as before, and makes
exactly one `Destroy()` call, on `v1`, when `v1` is `Destroyable`, and none
otherwise; hence none on `v2` when `v2` is not `v1`. -/
theorem registry_overwrite (m : Manager T) (key : String) (v1 v2 : T)
    (h1 : m.instances key = some v1) (h2 : Value.isNil v2 = false) :
    (Add m key v2).1 = none ∧
    (Add m key v2).2.instances key = some v2 ∧
    Load (Add m key v2).2 key = Except.ok v2 ∧
    (∀ other, other ≠ key → (Add m key v2).2.instances other = m.instances other) ∧
    (Add m key v2).2.destroyed = m.destroyed ++ (if Value.destroyable v1 then [v1] else []) ∧
    (v2 ≠ v1 → v2 ∉ (if Value.destroyable v1 then [v1] else [])) := by
  have hi := Add_instances m key v2 h2
  refine ⟨by rw [Add_nonNil m key v2 h2], by simp [hi], by simp [Load, hi], ?_,
    Add_destroyed m key v1 v2 h1 h2, ?_⟩
  · intro other ho
    simp [hi, Function.update_noteq ho]
  · intro hne
    split <;> simp [hne]

/-- Witness for C16: replacing `db0` under `"0"` by `db1`. -/
theorem registry_overwrite_witness :
    (Add registry02 "0" db1).1 = none ∧
    (Add registry02 "0" db1).2.instances "0" = some db1 ∧
    Load (Add registry02 "0" db1).2 "0" = Except.ok db1 ∧
    (∀ other, other ≠ "0" →
      (Add registry02 "0" db1).2.instances other = registry02.instances other) ∧
    (Add registry02 "0" db1).2.destroyed
      = registry02.destroyed ++ (if Value.destroyable db0 then [db0] else []) ∧
    (db1 ≠ db0 → db1 ∉ (if Value.destroyable db0 then [db0] else [])) :=
  registry_overwrite registry02 "0" db0 db1 rfl rfl

/-- C16, counterexample: storing `db0` again under `"0"`, where it already is,
calls `Destroy()` on `db0`, the value being stored. -/
theorem registry_overwrite_counterexample :
    registry02.instances "0" = some db0 ∧ Value.isNil db0 = false ∧
    registry02.destroyed = [] ∧
    (Add registry02 "0" db0).2.instances "0" = some db0 ∧
    (Add registry02 "0" db0).2.destroyed = [db0] := by
  decide

/-- C19 (removal).  `Remove` returns an error exactly when no value is stored
under the name, and then the registry is unchanged; otherwise it returns no
error, `Exists` of the name is false afterwards and every other name is as
before. -/
theorem registry_remove (m : Manager T) (key : String) :
    (((Remove m key).1).isSome = true ↔ Exists m key = false) ∧
    (Exists m key = false → (Remove m key).2 = m) ∧
    (Exists m key = true →
      (Remove m key).1 = none ∧ Exists (Remove m key).2 key = false ∧
      ∀ other, other ≠ key → (Remove m key).2.instances other = m.instances other) := by
  cases hm : m.instances key with
  | none =>
    rw [Remove_absent m key hm]
    simp [Exists, hm]
  | some v =>
    rw [Remove_present m key v hm]
    refine ⟨by simp [Exists, hm], by simp [Exists, hm], ?_⟩
    intro _
    refine ⟨rfl, by simp [Exists], ?_⟩
    intro other ho
    simp [Function.update_noteq ho]

/-- Witness for C19: removing the unknown name `"7"` and the stored name
`"2"`. -/
theorem registry_remove_witness :
    (Remove registry02 "7").1 = some (Error.nothingToRemove "7") ∧
    (Remove registry02 "7").2 = registry02 ∧
    (Remove registry02 "2").1 = none ∧
    Exists (Remove registry02 "2").2 "2" = false ∧
    (Remove registry02 "2").2.instances "0" = some db0 := by
  have h7 := (registry_remove registry02 "7").2.1 (by decide)
  have h2 := (registry_remove registry02 "2").2.2 (by decide)
  exact ⟨by decide, h7, h2.1, h2.2.1, by rw [h2.2.2 "0" (by decide)]; rfl⟩

end Registry
